import Mathlib

/-!
# Seller-financing calculator: verification of the financial core

Shallow embedding of the pure financial functions of `src/App.jsx`
(seller-financing-calculator-pro): amortization schedule with optional
balloon payment, all-cash and installment-sale tax computation, and
monthly net present value.  JavaScript numbers are modelled by exact
rationals `ℚ`; "within floating-point tolerance" in the specification
becomes exact equality.  `Math.round` is Mathlib's `round` (both compute
`⌊x + 1/2⌋`), and `Math.pow(1 + r, n)` with an integer exponent is `zpow`.
-/

namespace SellerFinance

/-- One row of the amortization schedule, as pushed by `buildSchedule`
(`{month, payment, interest, principal, balance, isBalloon}`; rows without
the `isBalloon` mark carry `false`). -/
structure Row where
  month : ℕ
  payment : ℚ
  interest : ℚ
  principal : ℚ
  balance : ℚ
  isBalloon : Bool
  deriving Repr, DecidableEq

/-- A point of a discounted cash-flow stream (`{month, amount}`). -/
structure CashFlow where
  month : ℕ
  amount : ℚ
  deriving Repr, DecidableEq

/-- Result record of `taxesAllCash`. -/
structure AllCashResult where
  amountRealized : ℚ
  gain : ℚ
  recaptureTax : ℚ
  capGainTax : ℚ
  totalTax : ℚ
  deriving Repr, DecidableEq

/-- One row of the installment-sale tax table
(`{month, capGainTax, interestTax, recaptureTax}`). -/
structure TaxRow where
  month : ℕ
  capGainTax : ℚ
  interestTax : ℚ
  recaptureTax : ℚ
  deriving Repr, DecidableEq

/-- Result record of `buildInstallmentTaxes`. -/
structure InstallmentResult where
  rows : List TaxRow
  GPR : ℚ
  totalCapGainTax : ℚ
  totalInterestTax : ℚ
  recaptureTax : ℚ
  totalTax : ℚ
  deriving Repr, DecidableEq

/-- `monthlyPaymentWithBalloon(P, rateAnnualPct, years, balloon)` from the
source: the annuity payment over `n = Math.round(years * 12)` months on the
principal net of the balloon's present value.  The source's locals
`r = rateAnnualPct/100/12`, `n`, `pvBalloon` and `effectivePV` are inlined. -/
def monthlyPaymentWithBalloon (P rateAnnualPct years balloon : ℚ) : ℚ :=
  if rateAnnualPct / 100 / 12 = 0 then
    (P - balloon) / ((round (years * 12) : ℤ) : ℚ)
  else
    (P - balloon / (1 + rateAnnualPct / 100 / 12) ^ (round (years * 12) : ℤ))
      * (rateAnnualPct / 100 / 12)
      / (1 - (1 + rateAnnualPct / 100 / 12) ^ (-(round (years * 12) : ℤ)))

/-- `npvMonthly(cashflows, discountAnnualPct)` from the source: a left fold
accumulating `amount / (1 + r) ^ month` with `r = discountAnnualPct/100/12`. -/
def npvMonthly (cashflows : List CashFlow) (discountAnnualPct : ℚ) : ℚ :=
  let r := discountAnnualPct / 100 / 12
  cashflows.foldl (fun acc cf => acc + cf.amount / (1 + r) ^ cf.month) 0

/-- `taxesAllCash({price, sellingCosts, basis, recaptureAmt, recaptureRate,
ltcgRate, stateGainRate})` from the source. -/
def taxesAllCash (price sellingCosts basis recaptureAmt recaptureRate ltcgRate stateGainRate : ℚ) :
    AllCashResult :=
  let amountRealized := price - sellingCosts
  let gain := max 0 (amountRealized - basis)
  let recaptureTaxable := min recaptureAmt gain
  let recaptureTax := recaptureTaxable * (recaptureRate / 100)
  let remainingGain := max 0 (gain - recaptureTaxable)
  let capGainTax := remainingGain * ((ltcgRate + stateGainRate) / 100)
  let totalTax := recaptureTax + capGainTax
  AllCashResult.mk amountRealized gain recaptureTax capGainTax totalTax

/-- `buildInstallmentTaxes({schedule, price, sellingCosts, basis,
recaptureAmt, recaptureRate, ltcgRate, stateGainRate, ordRate, stateOrdRate})`
from the source.  The JavaScript loop pushes one tax row per schedule row and
accumulates the two running totals left to right; over exact rationals that
accumulation is the sum of the corresponding columns. -/
def buildInstallmentTaxes (schedule : List Row)
    (price sellingCosts basis recaptureAmt recaptureRate ltcgRate stateGainRate ordRate stateOrdRate : ℚ) :
    InstallmentResult :=
  let amountRealized := price - sellingCosts
  let contractPrice := amountRealized
  let grossProfit := max 0 (amountRealized - basis - recaptureAmt)
  let GPR := if 0 < contractPrice then grossProfit / contractPrice else 0
  let recaptureTax := min recaptureAmt (max 0 (amountRealized - basis)) * (recaptureRate / 100)
  let monthRows := schedule.map (fun row =>
    TaxRow.mk row.month (row.principal * GPR * ((ltcgRate + stateGainRate) / 100))
      (row.interest * ((ordRate + stateOrdRate) / 100)) 0)
  let totalCapGainTax := (monthRows.map TaxRow.capGainTax).sum
  let totalInterestTax := (monthRows.map TaxRow.interestTax).sum
  let totalTax := recaptureTax + totalCapGainTax + totalInterestTax
  InstallmentResult.mk (TaxRow.mk 0 0 0 recaptureTax :: monthRows)
    GPR totalCapGainTax totalInterestTax recaptureTax totalTax

/-- The month loop of `buildSchedule`, as a recursion on the number of
remaining months.  With `k + 1` months still to emit the current month is
`m = n - k`; the running (unclamped) balance is `bal`.  The three branches
are, in source order: the final month with a balloon (overridden principal,
unclamped balance, then the synthetic balloon row and `break`), the final
month without a balloon (the residual balance folded into the principal and
the balance forced to zero), and the regular month (balance clamped with
`Math.max(0, bal)` in the emitted row only). -/
def schedGo (pmt r balloon : ℚ) (n : ℕ) : ℕ → ℚ → List Row
  | 0, _ => []
  | k + 1, bal =>
    if k = 0 then
      if 0 < balloon then
        [Row.mk (n - k) pmt (bal * r) (max 0 (bal - balloon))
           (bal - max 0 (bal - balloon)) false,
         Row.mk (n - k) balloon 0 balloon 0 true]
      else
        [Row.mk (n - k) pmt (bal * r)
           ((pmt - bal * r) + (bal - (pmt - bal * r))) (max 0 (0 : ℚ)) false]
    else
      Row.mk (n - k) pmt (bal * r) (pmt - bal * r) (max 0 (bal - (pmt - bal * r))) false ::
        schedGo pmt r balloon n k (bal - (pmt - bal * r))

/-- `buildSchedule({principal, ratePct, termYears, balloon})` from the
source: the schedule rows together with the monthly payment
(`n = Math.round(termYears * 12)` and `r = ratePct/100/12` inlined).  A
non-positive month count leaves the loop unexecuted. -/
def buildSchedule (principal ratePct termYears balloon : ℚ) : List Row × ℚ :=
  (schedGo (monthlyPaymentWithBalloon principal ratePct termYears balloon)
      (ratePct / 100 / 12) balloon
      (round (termYears * 12)).toNat (round (termYears * 12)).toNat principal,
   monthlyPaymentWithBalloon principal ratePct termYears balloon)

/-- Folding `acc + f x` over a list from any seed is the seed plus the sum
of the images. -/
theorem foldl_add_map {α : Type} (f : α → ℚ) :
    ∀ (l : List α) (a : ℚ), l.foldl (fun acc x => acc + f x) a = a + (l.map f).sum := by
  intro l
  induction l with
  | nil => intro a; simp
  | cons x xs ih => intro a; simp [ih, add_assoc]

/-- C5: `npvMonthly` is the sum `Σ amount / (1 + r)^month` with
`r = ratePct/1200` (month-0 entries are divided by `(1+r)^0 = 1`, hence
undiscounted), and at discount rate `0` it is the plain sum of the
amounts. -/
theorem claim_C5 (cfs : List CashFlow) (ratePct : ℚ) :
    npvMonthly cfs ratePct
        = (cfs.map (fun cf => cf.amount / (1 + ratePct / 100 / 12) ^ cf.month)).sum
      ∧ npvMonthly cfs 0 = (cfs.map CashFlow.amount).sum := by
  constructor
  · simp [npvMonthly, foldl_add_map]
  · simp [npvMonthly, foldl_add_map]

/-- C4: `taxesAllCash` realizes the specified formulas for `gain`,
`recaptureTax`, `capGainTax` and `totalTax`; on the spec's concrete example
it returns `gain = 800000`, `recaptureTax = 0`, `capGainTax = 200000`,
`totalTax = 200000`; and on the documented input domain (non-negative
recapture amount and rates) no returned tax is negative. -/
theorem claim_C4 :
    (∀ price sellingCosts basis recaptureAmt recaptureRate ltcgRate stateGainRate : ℚ,
      (taxesAllCash price sellingCosts basis recaptureAmt recaptureRate ltcgRate stateGainRate).gain
          = max 0 (price - sellingCosts - basis)
        ∧ (taxesAllCash price sellingCosts basis recaptureAmt recaptureRate ltcgRate stateGainRate).recaptureTax
          = min recaptureAmt (max 0 (price - sellingCosts - basis)) * (recaptureRate / 100)
        ∧ (taxesAllCash price sellingCosts basis recaptureAmt recaptureRate ltcgRate stateGainRate).capGainTax
          = (max 0 (price - sellingCosts - basis)
              - min recaptureAmt (max 0 (price - sellingCosts - basis)))
            * ((ltcgRate + stateGainRate) / 100)
        ∧ (taxesAllCash price sellingCosts basis recaptureAmt recaptureRate ltcgRate stateGainRate).totalTax
          = (taxesAllCash price sellingCosts basis recaptureAmt recaptureRate ltcgRate stateGainRate).recaptureTax
            + (taxesAllCash price sellingCosts basis recaptureAmt recaptureRate ltcgRate stateGainRate).capGainTax)
    ∧ taxesAllCash 1500000 0 700000 0 37 20 5
        = AllCashResult.mk 1500000 800000 0 200000 200000
    ∧ (∀ price sellingCosts basis recaptureAmt recaptureRate ltcgRate stateGainRate : ℚ,
        0 ≤ recaptureAmt → 0 ≤ recaptureRate → 0 ≤ ltcgRate → 0 ≤ stateGainRate →
          0 ≤ (taxesAllCash price sellingCosts basis recaptureAmt recaptureRate ltcgRate stateGainRate).recaptureTax
            ∧ 0 ≤ (taxesAllCash price sellingCosts basis recaptureAmt recaptureRate ltcgRate stateGainRate).capGainTax
            ∧ 0 ≤ (taxesAllCash price sellingCosts basis recaptureAmt recaptureRate ltcgRate stateGainRate).totalTax) := by
  refine ⟨?_, ?_, ?_⟩
  · intro price sellingCosts basis recaptureAmt recaptureRate ltcgRate stateGainRate
    refine ⟨rfl, rfl, ?_, rfl⟩
    simp only [taxesAllCash]
    rw [max_eq_right (sub_nonneg.mpr (min_le_right _ _))]
  · norm_num [taxesAllCash]
  · intro price sellingCosts basis recaptureAmt recaptureRate ltcgRate stateGainRate h1 h2 h3 h4
    simp only [taxesAllCash]
    have hgain : (0 : ℚ) ≤ max 0 (price - sellingCosts - basis) := le_max_left _ _
    have hrec : (0 : ℚ) ≤ min recaptureAmt (max 0 (price - sellingCosts - basis)) :=
      le_min h1 hgain
    have hrt : (0 : ℚ) ≤ min recaptureAmt (max 0 (price - sellingCosts - basis)) * (recaptureRate / 100) :=
      mul_nonneg hrec (by positivity)
    have hct : (0 : ℚ) ≤ max 0 (max 0 (price - sellingCosts - basis)
        - min recaptureAmt (max 0 (price - sellingCosts - basis)))
        * ((ltcgRate + stateGainRate) / 100) :=
      mul_nonneg (le_max_left _ _) (by positivity)
    exact ⟨hrt, hct, add_nonneg hrt hct⟩

/-- C4 witness: the non-negativity clause applied at the spec's concrete
example input. -/
theorem claim_C4_witness :
    0 ≤ (taxesAllCash 1500000 0 700000 0 37 20 5).recaptureTax
      ∧ 0 ≤ (taxesAllCash 1500000 0 700000 0 37 20 5).capGainTax
      ∧ 0 ≤ (taxesAllCash 1500000 0 700000 0 37 20 5).totalTax :=
  claim_C4.2.2 1500000 0 700000 0 37 20 5 (by norm_num) (by norm_num)
    (by norm_num) (by norm_num)

/-- C9: `buildInstallmentTaxes` returns one tax row per schedule row plus a
month-0 row; the month-0 row carries the whole recapture tax and zero
capital-gain and interest tax, every later row has zero recapture tax, and
`totalTax` is the month-0 recapture tax plus the sums of the `capGainTax`
and `interestTax` columns. -/
theorem claim_C9 (schedule : List Row)
    (price sellingCosts basis recaptureAmt recaptureRate ltcgRate stateGainRate ordRate stateOrdRate : ℚ) :
    (buildInstallmentTaxes schedule price sellingCosts basis recaptureAmt recaptureRate ltcgRate stateGainRate ordRate stateOrdRate).rows.length
        = schedule.length + 1
      ∧ (buildInstallmentTaxes schedule price sellingCosts basis recaptureAmt recaptureRate ltcgRate stateGainRate ordRate stateOrdRate).rows.head?
        = some (TaxRow.mk 0 0 0
            (buildInstallmentTaxes schedule price sellingCosts basis recaptureAmt recaptureRate ltcgRate stateGainRate ordRate stateOrdRate).recaptureTax)
      ∧ (∀ t ∈ (buildInstallmentTaxes schedule price sellingCosts basis recaptureAmt recaptureRate ltcgRate stateGainRate ordRate stateOrdRate).rows.tail,
          t.recaptureTax = 0)
      ∧ (buildInstallmentTaxes schedule price sellingCosts basis recaptureAmt recaptureRate ltcgRate stateGainRate ordRate stateOrdRate).totalTax
        = (buildInstallmentTaxes schedule price sellingCosts basis recaptureAmt recaptureRate ltcgRate stateGainRate ordRate stateOrdRate).recaptureTax
          + ((buildInstallmentTaxes schedule price sellingCosts basis recaptureAmt recaptureRate ltcgRate stateGainRate ordRate stateOrdRate).rows.map TaxRow.capGainTax).sum
          + ((buildInstallmentTaxes schedule price sellingCosts basis recaptureAmt recaptureRate ltcgRate stateGainRate ordRate stateOrdRate).rows.map TaxRow.interestTax).sum := by
  refine ⟨?_, rfl, ?_, ?_⟩
  · simp [buildInstallmentTaxes]
  · intro t ht
    simp only [buildInstallmentTaxes, List.tail_cons, List.mem_map] at ht
    obtain ⟨row, _, rfl⟩ := ht
    rfl
  · simp [buildInstallmentTaxes]

/-- Embedding of `monthlyPaymentWithBalloon` in which every division
carries a definedness check: a zero denominator yields `none`, modelling
the JavaScript division producing `Infinity` or `NaN` (a non-finite
number) instead of a finite result.  The source has no guard on
`n = Math.round(years * 12)`, so `n = 0` reaches a zero denominator in
both branches. -/
def monthlyPaymentWithBalloonChecked (P rateAnnualPct years balloon : ℚ) : Option ℚ :=
  let r := rateAnnualPct / 100 / 12
  let n : ℤ := round (years * 12)
  if r = 0 then
    if (n : ℚ) = 0 then none else some ((P - balloon) / (n : ℚ))
  else
    if (1 + r) ^ n = 0 then none
    else
      let pvBalloon := balloon / (1 + r) ^ n
      let effectivePV := P - pvBalloon
      if 1 - (1 + r) ^ (-n) = 0 then none
      else some (effectivePV * r / (1 - (1 + r) ^ (-n)))

/-- Summing `row.principal * g * c` over a schedule is `g * c` times the sum
of the principal column. -/
theorem sum_map_principal_mul (g c : ℚ) (l : List Row) :
    (l.map (fun row => row.principal * g * c)).sum = (l.map Row.principal).sum * g * c := by
  induction l with
  | nil => simp
  | cons x xs ih =>
    simp only [List.map_cons, List.sum_cons, ih]
    ring

/-- C6 fails on the code: with `termYears = 0` (so `n = 0` months) neither
`monthlyPaymentWithBalloon` nor `buildSchedule` guards the division — at a
6% rate the payment denominator `1 - (1+r)^(-0)` is `0`, and at a 0% rate
the payment is `(P - balloon)/0`; in IEEE arithmetic both give a non-finite
payment (`Infinity`/`NaN`), while the schedule itself is empty. -/
theorem claim_C6 :
    monthlyPaymentWithBalloonChecked 1350000 6 0 0 = none
      ∧ monthlyPaymentWithBalloonChecked 1350000 0 0 0 = none
      ∧ (buildSchedule 1350000 6 0 0).1 = [] := by
  refine ⟨?_, ?_, ?_⟩ <;>
    norm_num [monthlyPaymentWithBalloonChecked, buildSchedule, schedGo, round_eq]

/-- C8: the payment returned by `buildSchedule` is the specified annuity
formula — `(P - B)/n` when the monthly rate is zero, otherwise
`(P - B·(1+r)^(-n))·r / (1 - (1+r)^(-n))` — and with no balloon and zero
rate it degenerates to straight-line amortization `P/n`. -/
theorem claim_C8 (P ratePct termYears B : ℚ) :
    ((buildSchedule P ratePct termYears B).2
        = if ratePct / 100 / 12 = 0 then
            (P - B) / ((round (termYears * 12) : ℤ) : ℚ)
          else
            (P - B * (1 + ratePct / 100 / 12) ^ (-(round (termYears * 12) : ℤ)))
              * (ratePct / 100 / 12)
              / (1 - (1 + ratePct / 100 / 12) ^ (-(round (termYears * 12) : ℤ))))
      ∧ (ratePct = 0 →
          (buildSchedule P ratePct termYears 0).2
            = P / ((round (termYears * 12) : ℤ) : ℚ)) := by
  constructor
  · simp only [buildSchedule, monthlyPaymentWithBalloon]
    split_ifs with h
    · rfl
    · rw [zpow_neg (1 + ratePct / 100 / 12) (round (termYears * 12)), ← div_eq_mul_inv]
  · intro h
    subst h
    simp [buildSchedule, monthlyPaymentWithBalloon]

/-- C8 witness: the zero-rate clause at `P = 100`, `termYears = 1`,
no balloon, where the payment is `100/12`. -/
theorem claim_C8_witness :
    (0 : ℚ) = 0
      ∧ (buildSchedule 100 0 1 0).2 = 100 / ((round ((1 : ℚ) * 12) : ℤ) : ℚ) :=
  ⟨rfl, (claim_C8 100 0 1 0).2 rfl⟩

/-- C3 as stated fails on the code: feed the zero-balloon one-month schedule
produced by `buildSchedule 100 0 (1/12) 0` (one row, principal 100) to
`buildInstallmentTaxes` with `price = 200`, no selling costs, zero basis and
recapture, `ltcgRate = 20`, everything else zero.  Then
`grossProfit = 200`, the claimed total is `200·20/100 = 40`, but the rows'
capital-gain taxes sum to `GPR · 100 · 20/100 = 20`: the schedule's
principal column (100) differs from the contract price (200), so the gross
profit is not fully recognized. -/
theorem claim_C3_counterexample :
    (((buildInstallmentTaxes (buildSchedule 100 0 (1/12) 0).1
          200 0 0 0 0 20 0 0 0).rows.map TaxRow.capGainTax).sum)
      ≠ max 0 (200 - 0 - 0 - 0) * ((20 + 0) / 100) := by
  norm_num [buildInstallmentTaxes, buildSchedule, schedGo,
    monthlyPaymentWithBalloon, round_eq]

/-- C3 amended: the capital-gain taxes over all output rows of
`buildInstallmentTaxes` sum to `GPR · (Σ principal) · (ltcgRate +
stateGainRate)/100`, for every schedule; the claimed identity
`Σ capGainTax = grossProfit · (ltcgRate + stateGainRate)/100` holds exactly
when the schedule's principal column sums to the (positive) contract price
`price - sellingCosts`. -/
theorem claim_C3_amended (schedule : List Row)
    (price sellingCosts basis recaptureAmt recaptureRate ltcgRate stateGainRate ordRate stateOrdRate : ℚ) :
    (((buildInstallmentTaxes schedule price sellingCosts basis recaptureAmt recaptureRate ltcgRate stateGainRate ordRate stateOrdRate).rows.map TaxRow.capGainTax).sum
        = (buildInstallmentTaxes schedule price sellingCosts basis recaptureAmt recaptureRate ltcgRate stateGainRate ordRate stateOrdRate).GPR
          * (schedule.map Row.principal).sum * ((ltcgRate + stateGainRate) / 100))
      ∧ ((schedule.map Row.principal).sum = price - sellingCosts →
          0 < price - sellingCosts →
          ((buildInstallmentTaxes schedule price sellingCosts basis recaptureAmt recaptureRate ltcgRate stateGainRate ordRate stateOrdRate).rows.map TaxRow.capGainTax).sum
            = max 0 (price - sellingCosts - basis - recaptureAmt)
              * ((ltcgRate + stateGainRate) / 100)) := by
  have hbase :
      ((buildInstallmentTaxes schedule price sellingCosts basis recaptureAmt recaptureRate ltcgRate stateGainRate ordRate stateOrdRate).rows.map TaxRow.capGainTax).sum
        = (buildInstallmentTaxes schedule price sellingCosts basis recaptureAmt recaptureRate ltcgRate stateGainRate ordRate stateOrdRate).GPR
          * (schedule.map Row.principal).sum * ((ltcgRate + stateGainRate) / 100) := by
    simp only [buildInstallmentTaxes, List.map_cons, List.sum_cons, List.map_map]
    rw [zero_add]
    have := sum_map_principal_mul
      (if 0 < price - sellingCosts then
          max 0 (price - sellingCosts - basis - recaptureAmt) / (price - sellingCosts)
        else 0)
      ((ltcgRate + stateGainRate) / 100) schedule
    simpa [Function.comp, mul_comm, mul_left_comm, mul_assoc] using this
  refine ⟨hbase, ?_⟩
  intro hsum hpos
  rw [hbase, hsum]
  simp only [buildInstallmentTaxes, if_pos hpos]
  rw [div_mul_cancel₀ _ (ne_of_gt hpos)]

/-- C3 amended witness: a one-row schedule whose principal column sums to
the contract price, on which the fully-recognized identity holds. -/
theorem claim_C3_amended_witness :
    ((buildSchedule 200 0 (1/12) 0).1.map Row.principal).sum = 200 - 0
      ∧ (0 : ℚ) < 200 - 0
      ∧ (((buildInstallmentTaxes (buildSchedule 200 0 (1/12) 0).1
            200 0 0 0 0 20 0 0 0).rows.map TaxRow.capGainTax).sum
          = max 0 (200 - 0 - 0 - 0) * ((20 + 0) / 100)) :=
  ⟨by norm_num [buildSchedule, schedGo, monthlyPaymentWithBalloon, round_eq],
   by norm_num,
   (claim_C3_amended (buildSchedule 200 0 (1/12) 0).1 200 0 0 0 0 20 0 0 0).2
     (by norm_num [buildSchedule, schedGo, monthlyPaymentWithBalloon, round_eq])
     (by norm_num)⟩

/-- C2 as stated fails on the code: for `principal = 100`, zero rate,
`termYears = 1/6` (two months) and `balloon = 40` the schedule is
`[⟨1, …, principal 30, …⟩, ⟨2, …, principal 30, …⟩, balloon row 40]`; the
final two rows' principal fields sum to `30 + 40 = 70 ≠ 100` — only the sum
over all rows returns the original principal. -/
theorem claim_C2_counterexample :
    (((buildSchedule 100 0 (1/6) 40).1.map Row.principal).reverse.take 2).sum ≠ 100 := by
  norm_num [buildSchedule, schedGo, monthlyPaymentWithBalloon, round_eq]

/-- The running balance of the amortization loop before the final-month
special cases: after `m` regular months the loop's `bal` is `balSeq P pmt r m`
(each month subtracts the principal portion `pmt - bal * r`). -/
def balSeq (P pmt r : ℚ) : ℕ → ℚ
  | 0 => P
  | m + 1 => balSeq P pmt r m - (pmt - balSeq P pmt r m * r)

/-- Closed form of the loop balance for a nonzero monthly rate. -/
theorem balSeq_closed (P pmt r : ℚ) (hr : r ≠ 0) :
    ∀ m : ℕ, balSeq P pmt r m = P * (1 + r) ^ m - pmt * ((1 + r) ^ m - 1) / r := by
  intro m
  induction m with
  | zero => simp [balSeq]
  | succ m ih =>
    simp only [balSeq, ih, pow_succ]
    field_simp
    ring

/-- Closed form of the loop balance for a zero monthly rate. -/
theorem balSeq_zero_rate (P pmt : ℚ) : ∀ m : ℕ, balSeq P pmt 0 m = P - m * pmt := by
  intro m
  induction m with
  | zero => simp [balSeq]
  | succ m ih =>
    simp only [balSeq, ih]
    push_cast
    ring

/-- If the payment covers the interest on the full principal, the loop
balance never exceeds the principal. -/
theorem balSeq_le (P pmt r : ℚ) (hr : 0 ≤ r) (hpmt : P * r ≤ pmt) :
    ∀ m : ℕ, balSeq P pmt r m ≤ P := by
  intro m
  induction m with
  | zero => exact le_refl P
  | succ m ih =>
    simp only [balSeq]
    nlinarith [mul_le_mul_of_nonneg_right ih hr]

/-- If the payment covers the interest on the full principal, the loop
balance is non-increasing. -/
theorem balSeq_succ_le (P pmt r : ℚ) (hr : 0 ≤ r) (hpmt : P * r ≤ pmt) (m : ℕ) :
    balSeq P pmt r (m + 1) ≤ balSeq P pmt r m := by
  have h1 := balSeq_le P pmt r hr hpmt m
  simp only [balSeq]
  nlinarith [mul_le_mul_of_nonneg_right h1 hr]

/-- The loop balance is antitone in the month index. -/
theorem balSeq_anti (P pmt r : ℚ) (hr : 0 ≤ r) (hpmt : P * r ≤ pmt) :
    Antitone (balSeq P pmt r) :=
  antitone_nat_of_succ_le (balSeq_succ_le P pmt r hr hpmt)

/-- The annuity identity: a payment satisfying
`pmt * ((1+r)^n - 1) = r * (P * (1+r)^n - B)` drives the loop balance to
exactly the balloon `B` after `n` months. -/
theorem balSeq_final (P pmt r B : ℚ) (n : ℕ) (hr : 0 < r)
    (hpmt : pmt * ((1 + r) ^ n - 1) = r * (P * (1 + r) ^ n - B)) :
    balSeq P pmt r n = B := by
  rw [balSeq_closed P pmt r hr.ne']
  field_simp
  linear_combination -hpmt

/-- The annuity payment is at least the first month's interest `P * r`. -/
theorem pmt_lower (P pmt r B : ℚ) (n : ℕ) (hr : 0 < r) (hn : 1 ≤ n) (hPB : B ≤ P)
    (hpmt : pmt * ((1 + r) ^ n - 1) = r * (P * (1 + r) ^ n - B)) :
    P * r ≤ pmt := by
  have hq1 : (1 : ℚ) < (1 + r) ^ n := one_lt_pow₀ (by linarith) (by omega)
  nlinarith [mul_nonneg hr.le (sub_nonneg.mpr hPB), sub_pos.mpr hq1]

/-- Clearing the denominators of the annuity payment formula. -/
theorem annuity_pmt_eq (P B r q : ℚ) (hq0 : q ≠ 0) (hq1 : q ≠ 1) :
    (P - B / q) * r / (1 - q⁻¹) * (q - 1) = r * (P * q - B) := by
  have hq1' : q - 1 ≠ 0 := sub_ne_zero.mpr hq1
  have h : 1 - q⁻¹ = (q - 1) / q := by field_simp
  rw [h]
  field_simp
  ring

/-- The payment computed by `monthlyPaymentWithBalloon` covers the interest
on the full principal and drives the loop balance to exactly the balloon
after `n` months, whenever `0 ≤ ratePct`, `balloon ≤ P` and the rounded
month count is `n ≥ 1`. -/
theorem pmt_spec (P ratePct years B : ℚ) (n : ℕ) (hr : 0 ≤ ratePct) (hPB : B ≤ P)
    (hn : round (years * 12) = (n : ℤ)) (hn1 : 1 ≤ n) :
    P * (ratePct / 100 / 12) ≤ monthlyPaymentWithBalloon P ratePct years B
      ∧ balSeq P (monthlyPaymentWithBalloon P ratePct years B) (ratePct / 100 / 12) n = B := by
  rw [monthlyPaymentWithBalloon, hn]
  by_cases hz : ratePct / 100 / 12 = 0
  · rw [if_pos hz]
    have hnQ : (0 : ℚ) < ((n : ℤ) : ℚ) := by exact_mod_cast Nat.cast_pos.mpr (by omega)
    constructor
    · rw [hz, mul_zero]
      exact div_nonneg (sub_nonneg.mpr hPB) hnQ.le
    · rw [hz, balSeq_zero_rate]
      push_cast
      field_simp
  · rw [if_neg hz]
    have hrpos : 0 < ratePct / 100 / 12 := lt_of_le_of_ne (by positivity) (Ne.symm hz)
    have h1r : (0 : ℚ) < 1 + ratePct / 100 / 12 := by linarith
    have hzp : (1 + ratePct / 100 / 12) ^ ((n : ℤ)) = (1 + ratePct / 100 / 12) ^ n :=
      zpow_natCast _ n
    have hzn : (1 + ratePct / 100 / 12) ^ (-(n : ℤ)) = ((1 + ratePct / 100 / 12) ^ n)⁻¹ := by
      rw [zpow_neg, hzp]
    have hq1 : (1 : ℚ) < (1 + ratePct / 100 / 12) ^ n := one_lt_pow₀ (by linarith) (by omega)
    have hq0 : (0 : ℚ) < (1 + ratePct / 100 / 12) ^ n := by positivity
    have hpmt :
        ((P - B / (1 + ratePct / 100 / 12) ^ ((n : ℤ)))
            * (ratePct / 100 / 12)
            / (1 - (1 + ratePct / 100 / 12) ^ (-(n : ℤ))))
          * ((1 + ratePct / 100 / 12) ^ n - 1)
        = (ratePct / 100 / 12) * (P * (1 + ratePct / 100 / 12) ^ n - B) := by
      rw [hzp, hzn]
      exact annuity_pmt_eq P B _ _ hq0.ne' hq1.ne'
    exact ⟨pmt_lower P _ _ B n hrpos hn1 hPB hpmt, balSeq_final P _ _ B n hrpos hpmt⟩

/-- `getLast?` skips the head when the tail is nonempty. -/
theorem getLast_cons_of_ne_nil {α : Type} (a : α) {l : List α} (h : l ≠ []) :
    (a :: l).getLast? = l.getLast? := by
  cases l with
  | nil => exact absurd rfl h
  | cons b t => exact List.getLast?_cons_cons

/-- The loop emits at least one row when at least one month remains. -/
theorem schedGo_ne_nil (pmt r B : ℚ) (n : ℕ) :
    ∀ k bal, 1 ≤ k → schedGo pmt r B n k bal ≠ [] := by
  intro k bal hk
  match k, hk with
  | j + 1, _ =>
    simp only [schedGo]
    split_ifs <;> simp

/-- Without a balloon the loop emits exactly one row per month. -/
theorem schedGo_length_no_balloon (pmt r B : ℚ) (n : ℕ) (hB : ¬ 0 < B) :
    ∀ k bal, (schedGo pmt r B n k bal).length = k := by
  intro k
  induction k with
  | zero => intro bal; rfl
  | succ j ih =>
    intro bal
    simp only [schedGo]
    by_cases hj : j = 0
    · subst hj
      rw [if_pos rfl, if_neg hB]
      rfl
    · rw [if_neg hj]
      simp [ih]

/-- With a balloon the loop emits one row per month plus the synthetic
balloon row. -/
theorem schedGo_length_balloon (pmt r B : ℚ) (n : ℕ) (hB : 0 < B) :
    ∀ k bal, 1 ≤ k → (schedGo pmt r B n k bal).length = k + 1 := by
  intro k
  induction k with
  | zero => intro bal h; omega
  | succ j ih =>
    intro bal _
    simp only [schedGo]
    by_cases hj : j = 0
    · subst hj
      rw [if_pos rfl, if_pos hB]
      rfl
    · rw [if_neg hj]
      simp [ih (bal - (pmt - bal * r)) (Nat.one_le_iff_ne_zero.mpr hj)]

/-- Without a balloon the principal column telescopes to the incoming
balance: the final month absorbs the residual exactly. -/
theorem schedGo_sum_no_balloon (pmt r B : ℚ) (n : ℕ) (hB : ¬ 0 < B) :
    ∀ k bal, 1 ≤ k → ((schedGo pmt r B n k bal).map Row.principal).sum = bal := by
  intro k
  induction k with
  | zero => intro bal h; omega
  | succ j ih =>
    intro bal _
    simp only [schedGo]
    by_cases hj : j = 0
    · subst hj
      rw [if_pos rfl, if_neg hB]
      simp only [List.map_cons, List.map_nil, List.sum_cons, List.sum_nil]
      ring
    · rw [if_neg hj]
      simp only [List.map_cons, List.sum_cons,
        ih (bal - (pmt - bal * r)) (Nat.one_le_iff_ne_zero.mpr hj)]
      ring

/-- Without a balloon the final emitted row carries balance exactly `0`. -/
theorem schedGo_last_no_balloon (pmt r B : ℚ) (n : ℕ) (hB : ¬ 0 < B) :
    ∀ k bal, 1 ≤ k →
      ((schedGo pmt r B n k bal).getLast?).map Row.balance = some 0 := by
  intro k
  induction k with
  | zero => intro bal h; omega
  | succ j ih =>
    intro bal _
    simp only [schedGo]
    by_cases hj : j = 0
    · subst hj
      rw [if_pos rfl, if_neg hB]
      simp
    · rw [if_neg hj]
      rw [getLast_cons_of_ne_nil _
        (schedGo_ne_nil pmt r B n j _ (Nat.one_le_iff_ne_zero.mpr hj))]
      exact ih (bal - (pmt - bal * r)) (Nat.one_le_iff_ne_zero.mpr hj)

/-- With a balloon the row list ends in the payoff pair: a regular row for
month `n` followed by the synthetic balloon row at the same month. -/
theorem schedGo_balloon_shape (pmt r B : ℚ) (n : ℕ) (hB : 0 < B) :
    ∀ k bal, 1 ≤ k →
      ∃ pre x, schedGo pmt r B n k bal = pre ++ [x, Row.mk n B 0 B 0 true]
        ∧ x.month = n := by
  intro k
  induction k with
  | zero => intro bal h; omega
  | succ j ih =>
    intro bal _
    simp only [schedGo]
    by_cases hj : j = 0
    · subst hj
      rw [if_pos rfl, if_pos hB]
      exact ⟨[], Row.mk (n - 0) pmt (bal * r) (max 0 (bal - B))
        (bal - max 0 (bal - B)) false, by simp, by simp⟩
    · rw [if_neg hj]
      obtain ⟨pre, x, hEq, hx⟩ :=
        ih (bal - (pmt - bal * r)) (Nat.one_le_iff_ne_zero.mpr hj)
      exact ⟨Row.mk (n - j) pmt (bal * r) (pmt - bal * r)
          (max 0 (bal - (pmt - bal * r))) false :: pre, x,
        by rw [hEq, List.cons_append], hx⟩

/-- With a balloon, and a final-month balance at least the balloon, the
principal column (balloon row included) telescopes to the incoming
balance. -/
theorem schedGo_sum_balloon (P pmt r B : ℚ) (n : ℕ) (hB : 0 < B)
    (hgeB : B ≤ balSeq P pmt r (n - 1)) :
    ∀ k, 1 ≤ k → k ≤ n →
      ((schedGo pmt r B n k (balSeq P pmt r (n - k))).map Row.principal).sum
        = balSeq P pmt r (n - k) := by
  intro k
  induction k with
  | zero => intro h _; omega
  | succ j ih =>
    intro h1 hk
    simp only [schedGo]
    by_cases hj : j = 0
    · subst hj
      rw [if_pos rfl, if_pos hB]
      simp only [List.map_cons, List.map_nil, List.sum_cons, List.sum_nil]
      rw [max_eq_right (sub_nonneg.mpr hgeB)]
      ring
    · rw [if_neg hj]
      have hjn : n - j = (n - (j + 1)) + 1 := by omega
      have hbal2 : balSeq P pmt r (n - (j + 1))
            - (pmt - balSeq P pmt r (n - (j + 1)) * r)
          = balSeq P pmt r (n - j) := by
        rw [hjn, balSeq]
      rw [hbal2]
      simp only [List.map_cons, List.sum_cons,
        ih (Nat.one_le_iff_ne_zero.mpr hj) (by omega)]
      linarith [hbal2]

/-- With a payment that covers the interest on the full principal, a
non-negative balloon not exceeding the final-month balance: every emitted
balance is non-negative, the balances are non-increasing along the list,
and the first emitted balance is at most the clamp of the incoming
balance. -/
theorem schedGo_balance (P pmt r B : ℚ) (n : ℕ) (hr : 0 ≤ r) (hP : P * r ≤ pmt)
    (hB0 : 0 ≤ B) (hgeB : B ≤ balSeq P pmt r (n - 1)) :
    ∀ k, 1 ≤ k → k ≤ n →
      (∀ row ∈ schedGo pmt r B n k (balSeq P pmt r (n - k)), 0 ≤ row.balance)
        ∧ List.Chain' (fun a b => b.balance ≤ a.balance)
            (schedGo pmt r B n k (balSeq P pmt r (n - k)))
        ∧ (∀ row ∈ (schedGo pmt r B n k (balSeq P pmt r (n - k))).head?,
            row.balance ≤ max 0 (balSeq P pmt r (n - k))) := by
  intro k
  induction k with
  | zero => intro h _; omega
  | succ j ih =>
    intro h1 hk
    simp only [schedGo]
    by_cases hj : j = 0
    · subst hj
      rw [if_pos rfl]
      by_cases hBpos : 0 < B
      · rw [if_pos hBpos]
        have hmax : max 0 (balSeq P pmt r (n - 1) - B) = balSeq P pmt r (n - 1) - B :=
          max_eq_right (sub_nonneg.mpr hgeB)
        have hbal2 : balSeq P pmt r (n - 1) - max 0 (balSeq P pmt r (n - 1) - B) = B := by
          rw [hmax]; ring
        refine ⟨?_, ?_, ?_⟩
        · intro row hrow
          rcases List.mem_cons.mp hrow with h | h
          · rw [h]; simpa [hbal2] using hB0
          · rcases List.mem_singleton.mp h with h'
            rw [h']
        · simp only [List.chain'_cons, List.chain'_singleton, and_true]
          simpa [hbal2] using hB0
        · intro row hrow
          simp only [List.head?_cons, Option.mem_some_iff] at hrow
          rw [← hrow]
          simp only [hbal2]
          exact le_trans hgeB (le_max_right _ _)
      · rw [if_neg hBpos]
        refine ⟨?_, ?_, ?_⟩
        · intro row hrow
          rcases List.mem_singleton.mp hrow with h'
          rw [h']
          simp
        · simp
        · intro row hrow
          simp only [List.head?_cons, Option.mem_some_iff] at hrow
          rw [← hrow]
          simp
    · rw [if_neg hj]
      have hjn : n - j = (n - (j + 1)) + 1 := by omega
      have hbal2 : balSeq P pmt r (n - (j + 1))
            - (pmt - balSeq P pmt r (n - (j + 1)) * r)
          = balSeq P pmt r (n - j) := by
        rw [hjn, balSeq]
      obtain ⟨iha, ihb, ihc⟩ := ih (Nat.one_le_iff_ne_zero.mpr hj) (by omega)
      rw [hbal2]
      have hmono : balSeq P pmt r (n - j) ≤ balSeq P pmt r (n - (j + 1)) := by
        rw [hjn]
        exact balSeq_succ_le P pmt r hr hP _
      refine ⟨?_, ?_, ?_⟩
      · intro row hrow
        rcases List.mem_cons.mp hrow with h | h
        · rw [h]
          exact le_max_left _ _
        · exact iha row h
      · rw [List.chain'_cons']
        exact ⟨fun y hy => ihc y hy, ihb⟩
      · intro row hrow
        simp only [List.head?_cons, Option.mem_some_iff] at hrow
        rw [← hrow]
        exact max_le_max (le_refl 0) hmono

/-- C1: with no balloon, `n = round(termYears·12) ≥ 1` months, non-negative
principal and rate, `buildSchedule` returns exactly `n` rows, the final row
carries balance exactly `0`, and the principal column sums exactly to the
original principal. -/
theorem claim_C1 (principal ratePct termYears : ℚ) (n : ℕ)
    (hP : 0 ≤ principal) (hr : 0 ≤ ratePct) (ht : 0 < termYears)
    (hn : round (termYears * 12) = (n : ℤ)) (hn1 : 1 ≤ n) :
    (buildSchedule principal ratePct termYears 0).1.length = n
      ∧ ((buildSchedule principal ratePct termYears 0).1.getLast?).map Row.balance = some 0
      ∧ ((buildSchedule principal ratePct termYears 0).1.map Row.principal).sum = principal := by
  have hnn : (round (termYears * 12)).toNat = n := by omega
  have hB : ¬ (0 : ℚ) < 0 := lt_irrefl 0
  simp only [buildSchedule, hnn]
  exact ⟨schedGo_length_no_balloon _ _ _ _ hB n principal,
    schedGo_last_no_balloon _ _ _ _ hB n principal hn1,
    schedGo_sum_no_balloon _ _ _ _ hB n principal hn1⟩

/-- C1 witness: a one-month zero-rate loan of 100. -/
theorem claim_C1_witness :
    ((0 : ℚ) ≤ 100 ∧ (0 : ℚ) ≤ 0 ∧ (0 : ℚ) < 1/12
        ∧ round ((1 : ℚ)/12 * 12) = ((1 : ℕ) : ℤ) ∧ 1 ≤ 1)
      ∧ ((buildSchedule 100 0 (1/12) 0).1.length = 1
        ∧ ((buildSchedule 100 0 (1/12) 0).1.getLast?).map Row.balance = some 0
        ∧ ((buildSchedule 100 0 (1/12) 0).1.map Row.principal).sum = 100) :=
  ⟨⟨by norm_num, le_refl 0, by norm_num, by norm_num [round_eq], le_refl 1⟩,
   claim_C1 100 0 (1/12) 1 (by norm_num) (le_refl 0) (by norm_num)
     (by norm_num [round_eq]) (le_refl 1)⟩

/-- C2 amended: with a positive balloon at most the principal, a
non-negative rate and `n = round(termYears·12) ≥ 1` months, the schedule
ends in a payoff pair sharing month `n`, whose second member is the
synthetic balloon row (payment and principal equal to the balloon, zero
interest, zero balance); the principal fields of ALL rows — not of the
final two alone — sum to the original principal. -/
theorem claim_C2_amended (principal ratePct termYears balloon : ℚ) (n : ℕ)
    (hr : 0 ≤ ratePct) (hB : 0 < balloon) (hBP : balloon ≤ principal)
    (hn : round (termYears * 12) = (n : ℤ)) (hn1 : 1 ≤ n) :
    (∃ x rest, (buildSchedule principal ratePct termYears balloon).1.reverse
        = Row.mk n balloon 0 balloon 0 true :: x :: rest ∧ x.month = n)
      ∧ ((buildSchedule principal ratePct termYears balloon).1.map Row.principal).sum
        = principal := by
  have hnn : (round (termYears * 12)).toNat = n := by omega
  simp only [buildSchedule, hnn]
  obtain ⟨hlow, hfin⟩ := pmt_spec principal ratePct termYears balloon n hr hBP hn hn1
  have hr0 : (0 : ℚ) ≤ ratePct / 100 / 12 := by positivity
  have hgeB : balloon ≤ balSeq principal
      (monthlyPaymentWithBalloon principal ratePct termYears balloon)
      (ratePct / 100 / 12) (n - 1) := by
    have hanti := balSeq_anti principal
      (monthlyPaymentWithBalloon principal ratePct termYears balloon)
      (ratePct / 100 / 12) hr0 hlow (Nat.sub_le n 1)
    rwa [hfin] at hanti
  constructor
  · obtain ⟨pre, x, hEq, hx⟩ := schedGo_balloon_shape
      (monthlyPaymentWithBalloon principal ratePct termYears balloon)
      (ratePct / 100 / 12) balloon n hB n principal hn1
    refine ⟨x, pre.reverse, ?_, hx⟩
    rw [hEq]
    simp
  · have hsum := schedGo_sum_balloon principal
      (monthlyPaymentWithBalloon principal ratePct termYears balloon)
      (ratePct / 100 / 12) balloon n hB hgeB n hn1 le_rfl
    simpa [Nat.sub_self, balSeq] using hsum

/-- C2 amended witness: a two-month zero-rate loan of 100 with a balloon
of 40. -/
theorem claim_C2_amended_witness :
    ((0 : ℚ) ≤ 0 ∧ (0 : ℚ) < 40 ∧ (40 : ℚ) ≤ 100
        ∧ round ((1 : ℚ)/6 * 12) = ((2 : ℕ) : ℤ) ∧ 1 ≤ 2)
      ∧ ((∃ x rest, (buildSchedule 100 0 (1/6) 40).1.reverse
            = Row.mk 2 40 0 40 0 true :: x :: rest ∧ x.month = 2)
        ∧ ((buildSchedule 100 0 (1/6) 40).1.map Row.principal).sum = 100) :=
  ⟨⟨le_refl 0, by norm_num, by norm_num, by norm_num [round_eq], by norm_num⟩,
   claim_C2_amended 100 0 (1/6) 40 2 (le_refl 0) (by norm_num) (by norm_num)
     (by norm_num [round_eq]) (by norm_num)⟩

/-- C7: for non-negative principal and rate, positive term, and a balloon
between 0 and the principal, every balance in the emitted schedule is
non-negative and the balance column is non-increasing from the first row to
the last. -/
theorem claim_C7 (principal ratePct termYears balloon : ℚ)
    (hP : 0 ≤ principal) (hr : 0 ≤ ratePct) (ht : 0 < termYears)
    (hB0 : 0 ≤ balloon) (hBP : balloon ≤ principal) :
    (∀ row ∈ (buildSchedule principal ratePct termYears balloon).1, 0 ≤ row.balance)
      ∧ List.Chain' (fun a b => b.balance ≤ a.balance)
          (buildSchedule principal ratePct termYears balloon).1 := by
  simp only [buildSchedule]
  rcases Nat.eq_zero_or_pos (round (termYears * 12)).toNat with h0 | hpos
  · rw [h0]
    exact ⟨by intro row hrow; simp [schedGo] at hrow, by simp [schedGo]⟩
  · have hn : round (termYears * 12) = (((round (termYears * 12)).toNat : ℕ) : ℤ) := by
      omega
    obtain ⟨hlow, hfin⟩ := pmt_spec principal ratePct termYears balloon
      (round (termYears * 12)).toNat hr hBP hn hpos
    have hr0 : (0 : ℚ) ≤ ratePct / 100 / 12 := by positivity
    have hgeB : balloon ≤ balSeq principal
        (monthlyPaymentWithBalloon principal ratePct termYears balloon)
        (ratePct / 100 / 12) ((round (termYears * 12)).toNat - 1) := by
      have hanti := balSeq_anti principal
        (monthlyPaymentWithBalloon principal ratePct termYears balloon)
        (ratePct / 100 / 12) hr0 hlow (Nat.sub_le (round (termYears * 12)).toNat 1)
      rwa [hfin] at hanti
    have key := schedGo_balance principal
      (monthlyPaymentWithBalloon principal ratePct termYears balloon)
      (ratePct / 100 / 12) balloon (round (termYears * 12)).toNat
      hr0 hlow hB0 hgeB (round (termYears * 12)).toNat hpos le_rfl
    rw [Nat.sub_self] at key
    simp only [balSeq] at key
    exact ⟨key.1, key.2.1⟩

/-- C7 witness: a two-month zero-rate loan of 100 with a balloon of 40. -/
theorem claim_C7_witness :
    ((0 : ℚ) ≤ 100 ∧ (0 : ℚ) ≤ 0 ∧ (0 : ℚ) < 1/6 ∧ (0 : ℚ) ≤ 40 ∧ (40 : ℚ) ≤ 100)
      ∧ ((∀ row ∈ (buildSchedule 100 0 (1/6) 40).1, 0 ≤ row.balance)
        ∧ List.Chain' (fun a b => b.balance ≤ a.balance)
            (buildSchedule 100 0 (1/6) 40).1) :=
  ⟨⟨by norm_num, le_refl 0, by norm_num, by norm_num, by norm_num⟩,
   claim_C7 100 0 (1/6) 40 (by norm_num) (le_refl 0) (by norm_num)
     (by norm_num) (by norm_num)⟩

/-! ### The shareable-link codec

`b64Encode`/`b64Decode` in the source are compositions of platform
builtins: `JSON.stringify`/`JSON.parse`, `unescape(encodeURIComponent(·))`
and its inverse, and `btoa`/`atob`.  Those builtins are not repository
code; they are modelled here over `List Char` (JavaScript strings
restricted to Unicode scalar values) and `List ℕ` (byte strings):

* a DealInputs state object is a flat record of string and numeric fields,
  modelled as the association list `Obj`;
* `jsonStringify`/`jsonParse` model `JSON.stringify`/`JSON.parse` on that
  flat fragment of JSON.  A number is serialized as an exact finite
  decimal; a JavaScript number (an IEEE-754 double) is a dyadic rational
  and always has one, so the serializer's `none` case is unreachable on
  real inputs.  The parser accepts the grammar the serializer emits,
  JSON string escapes included;
* `unescape(encodeURIComponent(s))` is the UTF-8 byte expansion of `s`
  read as a Latin-1 string, and `decodeURIComponent(escape(·))` its
  partial inverse: `utf8Encode`/`utf8Decode`;
* `btoa`/`atob` are standard base64 with `=` padding.

A decoding failure at any stage models the JavaScript exception caught by
the `try`/`catch` of `b64Decode`, which then returns the fallback. -/

/-- A JSON value of a DealInputs field: a string or a number. -/
inductive JVal where
  | jstr : List Char → JVal
  | jnum : ℚ → JVal
  deriving Repr, DecidableEq

/-- A flat JSON object — the DealInputs state record, fields in insertion
order. -/
abbrev Obj := List (List Char × JVal)

/-- The ASCII digit for `n < 10`. -/
def digitChar (n : ℕ) : Char := Char.ofNat (48 + n)

/-- ASCII-digit test (the parser's character class). -/
def isDig (c : Char) : Bool := 48 ≤ c.toNat && c.toNat ≤ 57

/-- Lower-case hexadecimal digit for `n < 16`. -/
def hexDigit (n : ℕ) : Char := Char.ofNat (if n < 10 then 48 + n else 87 + n)

/-- Hexadecimal-digit test. -/
def isHex (c : Char) : Bool :=
  (48 ≤ c.toNat && c.toNat ≤ 57) || (97 ≤ c.toNat && c.toNat ≤ 102)
    || (65 ≤ c.toNat && c.toNat ≤ 70)

/-- Value of a hexadecimal digit. -/
def hexVal (c : Char) : ℕ :=
  if c.toNat ≤ 57 then c.toNat - 48
  else if c.toNat ≤ 70 then c.toNat - 55
  else c.toNat - 87

/-- Unicode scalar value test (what a `Char` can carry). -/
def isScalar (n : ℕ) : Bool := n < 55296 || (57344 ≤ n && n < 1114112)

/-- Big-endian decimal digits of `n`, with explicit fuel (`n + 1` suffices
because `n < 10 ^ (n + 1)`). -/
def natCharsAux : ℕ → ℕ → List Char
  | 0, _ => []
  | fuel + 1, n => if n < 10 then [digitChar n] else natCharsAux fuel (n / 10) ++ [digitChar (n % 10)]

/-- Big-endian decimal digits of `n` (nonempty; `0` prints as `"0"`). -/
def natChars (n : ℕ) : List Char := natCharsAux (n + 1) n

/-- Numeric value of a big-endian digit string. -/
def charsToNat (l : List Char) : ℕ := l.foldl (fun a c => 10 * a + (c.toNat - 48)) 0

/-- A decimal exponent `e` with `den ∣ 10 ^ e`, when one exists (searching
up to `den` is enough for every denominator of the form `2^a·5^b`). -/
def decExp (den : ℕ) : Option ℕ := (List.range (den + 1)).find? (fun e => 10 ^ e % den == 0)

/-- The decimal digit string of `m / 10 ^ e`: integer part, then — when
`e ≠ 0` — a point and exactly `e` fraction digits, zero-padded on the
left. -/
def ratDigits (m e : ℕ) : List Char :=
  natChars (m / 10 ^ e)
    ++ (if e = 0 then []
        else '.' :: (List.replicate (e - (natChars (m % 10 ^ e)).length) '0'
          ++ natChars (m % 10 ^ e)))

/-- Model of JavaScript number serialization: the exact finite decimal of
the rational, `none` when it has none (impossible for a double). -/
def ratToChars (q : ℚ) : Option (List Char) :=
  match decExp q.den with
  | none => none
  | some e =>
    some ((if q.num < 0 then ['-'] else []) ++ ratDigits (q.num.natAbs * 10 ^ e / q.den) e)

/-- JSON escaping of one character: `\"` and `\\`, `\u00XX` for control
characters, everything else verbatim. -/
def escapeChar (c : Char) : List Char :=
  if c = '"' then ['\\', '"']
  else if c = '\\' then ['\\', '\\']
  else if c.toNat < 32 then
    ['\\', 'u', '0', '0', hexDigit (c.toNat / 16), hexDigit (c.toNat % 16)]
  else [c]

/-- JSON escaping of a string body. -/
def escapeString (s : List Char) : List Char := (s.map escapeChar).flatten

/-- Model of the JSON string-body parser: consumes up to and including the
closing quote, decoding the escapes of the JSON grammar; `none` on a
malformed body (including a `\uXXXX` escape naming no scalar value, which
a `Char` cannot carry). -/
def parseStringBody : List Char → Option (List Char × List Char)
  | [] => none
  | c :: rest =>
    if c = '"' then some ([], rest)
    else if c = '\\' then
      match rest with
      | [] => none
      | e :: r =>
        if e = '"' then (parseStringBody r).map (fun p => ('"' :: p.1, p.2))
        else if e = '\\' then (parseStringBody r).map (fun p => ('\\' :: p.1, p.2))
        else if e = '/' then (parseStringBody r).map (fun p => ('/' :: p.1, p.2))
        else if e = 'b' then (parseStringBody r).map (fun p => (Char.ofNat 8 :: p.1, p.2))
        else if e = 'f' then (parseStringBody r).map (fun p => (Char.ofNat 12 :: p.1, p.2))
        else if e = 'n' then (parseStringBody r).map (fun p => (Char.ofNat 10 :: p.1, p.2))
        else if e = 'r' then (parseStringBody r).map (fun p => (Char.ofNat 13 :: p.1, p.2))
        else if e = 't' then (parseStringBody r).map (fun p => (Char.ofNat 9 :: p.1, p.2))
        else if e = 'u' then
          match r with
          | h1 :: h2 :: h3 :: h4 :: r2 =>
            if isHex h1 && isHex h2 && isHex h3 && isHex h4 then
              if isScalar (hexVal h1 * 4096 + hexVal h2 * 256 + hexVal h3 * 16 + hexVal h4) then
                (parseStringBody r2).map (fun p =>
                  (Char.ofNat (hexVal h1 * 4096 + hexVal h2 * 256 + hexVal h3 * 16 + hexVal h4)
                    :: p.1, p.2))
              else none
            else none
          | _ => none
        else none
    else (parseStringBody rest).map (fun p => (c :: p.1, p.2))

/-- Model of the JSON number parser on the emitted grammar: an optional
minus sign, integer digits, an optional point with fraction digits. -/
def parseUnsigned (l : List Char) : Option (ℚ × List Char) :=
  if l.takeWhile isDig = [] then none
  else
    if (l.dropWhile isDig).head? = some '.' then
      if (l.dropWhile isDig).tail.takeWhile isDig = [] then none
      else
        some ((charsToNat (l.takeWhile isDig) : ℚ)
            + (charsToNat ((l.dropWhile isDig).tail.takeWhile isDig) : ℚ)
              / 10 ^ ((l.dropWhile isDig).tail.takeWhile isDig).length,
          (l.dropWhile isDig).tail.dropWhile isDig)
    else some ((charsToNat (l.takeWhile isDig) : ℚ), l.dropWhile isDig)

/-- Signed JSON number parser. -/
def parseNum (l : List Char) : Option (ℚ × List Char) :=
  if l.head? = some '-' then (parseUnsigned l.tail).map (fun p => (-p.1, p.2))
  else parseUnsigned l

/-- Serialization of one JSON value. -/
def writeValue : JVal → Option (List Char)
  | JVal.jstr s => some ('"' :: (escapeString s ++ ['"']))
  | JVal.jnum q => ratToChars q

/-- Parser of one JSON value (string or number). -/
def parseValue (l : List Char) : Option (JVal × List Char) :=
  if l.head? = some '"' then
    (parseStringBody l.tail).map (fun p => (JVal.jstr p.1, p.2))
  else (parseNum l).map (fun p => (JVal.jnum p.1, p.2))

/-- Serialization of a nonempty pair list, comma-separated, including the
closing brace. -/
def writePairsClose : Obj → Option (List Char)
  | [] => none
  | (k, v) :: rest =>
    match writeValue v with
    | none => none
    | some wv =>
      match rest with
      | [] => some ('"' :: (escapeString k ++ '"' :: ':' :: (wv ++ ['}'])))
      | _ :: _ =>
        match writePairsClose rest with
        | none => none
        | some ws => some ('"' :: (escapeString k ++ '"' :: ':' :: (wv ++ ',' :: ws)))

/-- Parser of a nonempty pair list up to and including the closing brace;
the fuel bounds the number of pairs. -/
def parsePairs (fuel : ℕ) (l : List Char) : Option (Obj × List Char) :=
    if l.head? = some '"' then
      match parseStringBody l.tail with
      | none => none
      | some (key, r1) =>
        if r1.head? = some ':' then
          match parseValue r1.tail with
          | none => none
          | some (v, r3) =>
            if r3.head? = some ',' then
              match fuel with
              | 0 => none
              | fuel' + 1 =>
                match parsePairs fuel' r3.tail with
                | none => none
                | some (obj, r5) => some ((key, v) :: obj, r5)
            else if r3.head? = some '}' then some ([(key, v)], r3.tail)
            else none
        else none
    else none

/-- Model of `JSON.stringify` on a flat object. -/
def jsonStringify (obj : Obj) : Option (List Char) :=
  match obj with
  | [] => some ['{', '}']
  | _ :: _ => (writePairsClose obj).map (fun ws => '{' :: ws)

/-- Model of `JSON.parse` on the flat-object grammar: the whole input must
be consumed. -/
def jsonParse (l : List Char) : Option Obj :=
  if l.head? = some '{' then
    if l.tail = ['}'] then some []
    else
      match parsePairs l.tail.length l.tail with
      | some (obj, rest) => if rest = [] then some obj else none
      | none => none
  else none

/-- UTF-8 bytes of one scalar value (what
`unescape(encodeURIComponent(·))` produces per character). -/
def utf8EncodeChar (c : Char) : List ℕ :=
  if c.toNat < 128 then [c.toNat]
  else if c.toNat < 2048 then [192 + c.toNat / 64, 128 + c.toNat % 64]
  else if c.toNat < 65536 then
    [224 + c.toNat / 4096, 128 + c.toNat / 64 % 64, 128 + c.toNat % 64]
  else
    [240 + c.toNat / 262144, 128 + c.toNat / 4096 % 64, 128 + c.toNat / 64 % 64,
      128 + c.toNat % 64]

/-- UTF-8 bytes of a string. -/
def utf8Encode (s : List Char) : List ℕ := (s.map utf8EncodeChar).flatten

/-- Scalar value of a two-byte UTF-8 sequence. -/
def utf8Val2 (b b2 : ℕ) : ℕ := (b - 192) * 64 + (b2 - 128)

/-- Validity of a two-byte UTF-8 sequence (continuation range, not
overlong). -/
def utf8Valid2 (b b2 : ℕ) : Bool :=
  (128 ≤ b2 && b2 < 192) && 128 ≤ utf8Val2 b b2

/-- Scalar value of a three-byte UTF-8 sequence. -/
def utf8Val3 (b b2 b3 : ℕ) : ℕ := (b - 224) * 4096 + (b2 - 128) * 64 + (b3 - 128)

/-- Validity of a three-byte UTF-8 sequence (continuation ranges, not
overlong, not a surrogate). -/
def utf8Valid3 (b b2 b3 : ℕ) : Bool :=
  (128 ≤ b2 && b2 < 192) && (128 ≤ b3 && b3 < 192)
    && 2048 ≤ utf8Val3 b b2 b3 && isScalar (utf8Val3 b b2 b3)

/-- Scalar value of a four-byte UTF-8 sequence. -/
def utf8Val4 (b b2 b3 b4 : ℕ) : ℕ :=
  (b - 240) * 262144 + (b2 - 128) * 4096 + (b3 - 128) * 64 + (b4 - 128)

/-- Validity of a four-byte UTF-8 sequence (continuation ranges, in the
supplementary-plane range). -/
def utf8Valid4 (b b2 b3 b4 : ℕ) : Bool :=
  (128 ≤ b2 && b2 < 192) && (128 ≤ b3 && b3 < 192) && (128 ≤ b4 && b4 < 192)
    && 65536 ≤ utf8Val4 b b2 b3 b4 && utf8Val4 b b2 b3 b4 < 1114112

/-- Fuelled core of the UTF-8 decoder: `none` on malformed, overlong,
out-of-range or surrogate sequences.  One unit of fuel is spent per decoded
character, so any fuel bound above the character count is exact. -/
def utf8DecodeAux (fuel : ℕ) (l : List ℕ) : Option (List Char) :=
  match l with
  | [] => some []
  | b :: rest =>
    match fuel with
    | 0 => none
    | fuel + 1 =>
      if b < 128 then (utf8DecodeAux fuel rest).map (Char.ofNat b :: ·)
      else if b < 192 then none
      else if b < 224 then
        match rest.head? with
        | some b2 =>
          if utf8Valid2 b b2 then
            (utf8DecodeAux fuel rest.tail).map (Char.ofNat (utf8Val2 b b2) :: ·)
          else none
        | none => none
      else if b < 240 then
        match rest.head?, rest.tail.head? with
        | some b2, some b3 =>
          if utf8Valid3 b b2 b3 then
            (utf8DecodeAux fuel rest.tail.tail).map (Char.ofNat (utf8Val3 b b2 b3) :: ·)
          else none
        | _, _ => none
      else if b < 248 then
        match rest.head?, rest.tail.head?, rest.tail.tail.head? with
        | some b2, some b3, some b4 =>
          if utf8Valid4 b b2 b3 b4 then
            (utf8DecodeAux fuel rest.tail.tail.tail).map
              (Char.ofNat (utf8Val4 b b2 b3 b4) :: ·)
          else none
        | _, _, _ => none
      else none

/-- UTF-8 decoder (`decodeURIComponent(escape(·))`): the fuelled core run
with enough fuel for every input (at most one character per input byte). -/
def utf8Decode (l : List ℕ) : Option (List Char) := utf8DecodeAux l.length l

/-- Base64 character of a sixtet. -/
def sixtetChar (n : ℕ) : Char :=
  if n < 26 then Char.ofNat (65 + n)
  else if n < 52 then Char.ofNat (97 + (n - 26))
  else if n < 62 then Char.ofNat (48 + (n - 52))
  else if n = 62 then '+'
  else '/'

/-- Value of a base64 character. -/
def sixtetVal (c : Char) : Option ℕ :=
  if 65 ≤ c.toNat && c.toNat ≤ 90 then some (c.toNat - 65)
  else if 97 ≤ c.toNat && c.toNat ≤ 122 then some (c.toNat - 71)
  else if 48 ≤ c.toNat && c.toNat ≤ 57 then some (c.toNat + 4)
  else if c = '+' then some 62
  else if c = '/' then some 63
  else none

/-- Model of `btoa`: base64 of a byte string, with `=` padding. -/
def btoa : List ℕ → List Char
  | [] => []
  | [b1] => [sixtetChar (b1 / 4), sixtetChar (b1 % 4 * 16), '=', '=']
  | [b1, b2] =>
    [sixtetChar (b1 / 4), sixtetChar (b1 % 4 * 16 + b2 / 16), sixtetChar (b2 % 16 * 4), '=']
  | b1 :: b2 :: b3 :: rest =>
    sixtetChar (b1 / 4) :: sixtetChar (b1 % 4 * 16 + b2 / 16)
      :: sixtetChar (b2 % 16 * 4 + b3 / 64) :: sixtetChar (b3 % 64) :: btoa rest

/-- Model of `atob`: base64 decoding, `none` on a malformed input (the
`InvalidCharacterError` path of the JavaScript original). -/
def atob : List Char → Option (List ℕ)
  | [] => some []
  | c1 :: c2 :: c3 :: c4 :: rest =>
    match sixtetVal c1, sixtetVal c2 with
    | some s1, some s2 =>
      if c3 = '=' then
        if c4 = '=' && rest.isEmpty then some [s1 * 4 + s2 / 16] else none
      else
        match sixtetVal c3 with
        | some s3 =>
          if c4 = '=' then
            if rest.isEmpty then some [s1 * 4 + s2 / 16, s2 % 16 * 16 + s3 / 4] else none
          else
            match sixtetVal c4 with
            | some s4 =>
              match atob rest with
              | some bs =>
                some ((s1 * 4 + s2 / 16) :: (s2 % 16 * 16 + s3 / 4) :: (s3 % 4 * 64 + s4) :: bs)
              | none => none
            | none => none
        | none => none
    | _, _ => none
  | _ => none

/-- `b64Encode(obj)` from the source:
`btoa(unescape(encodeURIComponent(JSON.stringify(obj))))`; `none` marks a
thrown exception (unreachable for double-precision field values). -/
def b64Encode (obj : Obj) : Option (List Char) :=
  (jsonStringify obj).map (fun s => btoa (utf8Encode s))

/-- `b64Decode(str, fallback)` from the source:
`JSON.parse(decodeURIComponent(escape(atob(str))))` with the `try`/`catch`
returning the fallback on any failure. -/
def b64Decode (str : List Char) (fallback : Obj) : Obj :=
  match atob str with
  | none => fallback
  | some bytes =>
    match utf8Decode bytes with
    | none => fallback
    | some s =>
      match jsonParse s with
      | none => fallback
      | some obj => obj

/-- Decimal digits have digit codes. -/
theorem digitChar_toNat : ∀ n, n < 10 → (digitChar n).toNat = 48 + n ∧ isDig (digitChar n) = true := by
  decide

/-- A digit character is not one of the structural characters. -/
theorem isDig_ne (c : Char) (h : isDig c = true) :
    c ≠ '-' ∧ c ≠ '"' ∧ c ≠ '.' ∧ c ≠ '}' ∧ c ≠ ',' ∧ c ≠ ':' := by
  refine ⟨?_, ?_, ?_, ?_, ?_, ?_⟩ <;> rintro rfl <;> simp [isDig] at h

/-- Unfolding equation of the fuelled digit printer. -/
theorem natCharsAux_succ (fuel n : ℕ) :
    natCharsAux (fuel + 1) n
      = if n < 10 then [digitChar n]
        else natCharsAux fuel (n / 10) ++ [digitChar (n % 10)] := rfl

/-- Specification of the fuelled digit printer: on `n < 10 ^ (fuel + 1)` it
is nonempty, all digits, and folds back to `n` from any accumulator. -/
theorem natCharsAux_spec : ∀ fuel n, n < 10 ^ (fuel + 1) →
    natCharsAux (fuel + 1) n ≠ []
      ∧ (∀ c ∈ natCharsAux (fuel + 1) n, isDig c = true)
      ∧ ∀ a, (natCharsAux (fuel + 1) n).foldl (fun a c => 10 * a + (c.toNat - 48)) a
          = a * 10 ^ (natCharsAux (fuel + 1) n).length + n := by
  intro fuel
  induction fuel with
  | zero =>
    intro n hn
    have h10 : n < 10 := by simpa using hn
    obtain ⟨ht, hd⟩ := digitChar_toNat n h10
    refine ⟨by simp [natCharsAux, h10], ?_, ?_⟩
    · intro c hc
      simp [natCharsAux, h10] at hc
      rw [hc]
      exact hd
    · intro a
      simp [natCharsAux, h10, ht]
      omega
  | succ fuel ih =>
    intro n hn
    by_cases h10 : n < 10
    · obtain ⟨ht, hd⟩ := digitChar_toNat n h10
      refine ⟨by simp [natCharsAux, h10], ?_, ?_⟩
      · intro c hc
        simp [natCharsAux, h10] at hc
        rw [hc]
        exact hd
      · intro a
        simp [natCharsAux, h10, ht]
        omega
    · have hdiv : n / 10 < 10 ^ (fuel + 1) := by
        rw [Nat.div_lt_iff_lt_mul (by norm_num)]
        calc n < 10 ^ (fuel + 1 + 1) := hn
        _ = 10 ^ (fuel + 1) * 10 := by ring
      obtain ⟨hne, hdig, hfold⟩ := ih (n / 10) hdiv
      have hmod : n % 10 < 10 := Nat.mod_lt _ (by norm_num)
      obtain ⟨htm, hdm⟩ := digitChar_toNat (n % 10) hmod
      refine ⟨?_, ?_, ?_⟩
      · rw [natCharsAux_succ (fuel + 1) n, if_neg h10]
        simp
      · intro c hc
        rw [natCharsAux_succ (fuel + 1) n, if_neg h10] at hc
        simp only [List.mem_append, List.mem_singleton] at hc
        rcases hc with hc | hc
        · exact hdig c hc
        · rw [hc]; exact hdm
      · intro a
        rw [natCharsAux_succ (fuel + 1) n, if_neg h10, List.foldl_append, hfold a]
        simp only [List.foldl_cons, List.foldl_nil, List.length_append,
          List.length_cons, List.length_nil, htm]
        have hstep : 10 * (a * 10 ^ (natCharsAux (fuel + 1) (n / 10)).length + n / 10)
              + (48 + n % 10 - 48)
            = a * 10 ^ ((natCharsAux (fuel + 1) (n / 10)).length + (0 + 1))
              + (10 * (n / 10) + n % 10) := by
          rw [pow_succ]
          ring_nf
          omega
        rw [hstep, Nat.div_add_mod]

/-- `natChars n` is nonempty and consists of digits. -/
theorem natChars_spec (n : ℕ) :
    natChars n ≠ [] ∧ (∀ c ∈ natChars n, isDig c = true)
      ∧ charsToNat (natChars n) = n := by
  have hn : n < 10 ^ (n + 1) := by
    calc n < 10 ^ n := Nat.lt_pow_self (by norm_num) n
    _ ≤ 10 ^ (n + 1) := Nat.pow_le_pow_right (by norm_num) (by omega)
  obtain ⟨h1, h2, h3⟩ := natCharsAux_spec n n hn
  exact ⟨h1, h2, by simpa [charsToNat] using h3 0⟩

/-- The digit printer uses no more digits than any decimal bound. -/
theorem natCharsAux_len : ∀ fuel n e, n < 10 ^ (fuel + 1) → n < 10 ^ e → 1 ≤ e →
    (natCharsAux (fuel + 1) n).length ≤ e := by
  intro fuel
  induction fuel with
  | zero =>
    intro n e hn he h1
    have h10 : n < 10 := by simpa using hn
    rw [natCharsAux_succ 0 n, if_pos h10]
    simpa using h1
  | succ fuel ih =>
    intro n e hn he h1
    by_cases h10 : n < 10
    · rw [natCharsAux_succ (fuel + 1) n, if_pos h10]
      simpa using h1
    · have he2 : 2 ≤ e := by
        by_contra hcon
        have he1 : e = 1 := by omega
        rw [he1] at he
        simp at he
        omega
      have hdiv : n / 10 < 10 ^ (fuel + 1) := by
        rw [Nat.div_lt_iff_lt_mul (by norm_num)]
        calc n < 10 ^ (fuel + 1 + 1) := hn
        _ = 10 ^ (fuel + 1) * 10 := by ring
      have hdiv2 : n / 10 < 10 ^ (e - 1) := by
        rw [Nat.div_lt_iff_lt_mul (by norm_num)]
        calc n < 10 ^ e := he
        _ = 10 ^ (e - 1) * 10 := by
          rw [← pow_succ]
          congr 1
          omega
      have hlen := ih (n / 10) (e - 1) hdiv hdiv2 (by omega)
      rw [natCharsAux_succ (fuel + 1) n, if_neg h10]
      simp only [List.length_append, List.length_cons, List.length_nil]
      omega

/-- Length bound for `natChars`. -/
theorem natChars_len (n e : ℕ) (he : n < 10 ^ e) (h1 : 1 ≤ e) :
    (natChars n).length ≤ e := by
  have hn : n < 10 ^ (n + 1) := by
    calc n < 10 ^ n := Nat.lt_pow_self (by norm_num) n
    _ ≤ 10 ^ (n + 1) := Nat.pow_le_pow_right (by norm_num) (by omega)
  exact natCharsAux_len n n e hn he h1

/-- Leading zeros do not change the parsed value. -/
theorem charsToNat_replicate_zero (k : ℕ) (l : List Char) :
    charsToNat (List.replicate k '0' ++ l) = charsToNat l := by
  induction k with
  | zero => simp
  | succ k ih =>
    simp only [charsToNat, List.replicate_succ, List.cons_append, List.foldl_cons] at *
    convert ih using 2

/-- `takeWhile`/`dropWhile` split an append at the predicate boundary. -/
theorem span_append (p : Char → Bool) :
    ∀ (l1 l2 : List Char), (∀ c ∈ l1, p c = true) → (∀ c ∈ l2.head?, p c = false) →
      (l1 ++ l2).takeWhile p = l1 ∧ (l1 ++ l2).dropWhile p = l2 := by
  intro l1
  induction l1 with
  | nil =>
    intro l2 _ h2
    cases l2 with
    | nil => simp
    | cons c t =>
      have := h2 c (by simp)
      simp [List.takeWhile_cons, List.dropWhile_cons, this]
  | cons c t ih =>
    intro l2 h1 h2
    have hc := h1 c (by simp)
    have := ih l2 (fun x hx => h1 x (by simp [hx])) h2
    simp [List.takeWhile_cons, List.dropWhile_cons, hc, this.1, this.2]

/-- The unsigned parser reads back a plain integer. -/
theorem parseUnsigned_int (n : ℕ) (rest : List Char)
    (hrest : ∀ c ∈ rest.head?, isDig c = false ∧ c ≠ '.') :
    parseUnsigned (natChars n ++ rest) = some ((n : ℚ), rest) := by
  obtain ⟨hne, hdig, hval⟩ := natChars_spec n
  obtain ⟨htake, hdrop⟩ := span_append isDig (natChars n) rest hdig
    (fun c hc => (hrest c hc).1)
  have hdot : ¬ rest.head? = some '.' := by
    cases rest with
    | nil => simp
    | cons c t =>
      have := (hrest c (by simp)).2
      simp [this]
  simp only [parseUnsigned, htake, hdrop]
  rw [if_neg hne, if_neg hdot, hval]

/-- The unsigned parser reads back an integer-point-fraction decimal,
zero padding included. -/
theorem parseUnsigned_frac (i f e : ℕ) (rest : List Char) (he : 1 ≤ e) (hf : f < 10 ^ e)
    (hrest : ∀ c ∈ rest.head?, isDig c = false) :
    parseUnsigned (natChars i
        ++ '.' :: (List.replicate (e - (natChars f).length) '0' ++ natChars f) ++ rest)
      = some ((i : ℚ) + (f : ℚ) / 10 ^ e, rest) := by
  obtain ⟨hneI, hdigI, hvalI⟩ := natChars_spec i
  obtain ⟨hneF, hdigF, hvalF⟩ := natChars_spec f
  have hdigPad : ∀ c ∈ List.replicate (e - (natChars f).length) '0' ++ natChars f,
      isDig c = true := by
    intro c hc
    rcases List.mem_append.mp hc with hc | hc
    · rw [List.eq_of_mem_replicate hc]
      decide
    · exact hdigF c hc
  obtain ⟨htakeF, hdropF⟩ := span_append isDig
    (List.replicate (e - (natChars f).length) '0' ++ natChars f) rest hdigPad hrest
  have hlenF : (List.replicate (e - (natChars f).length) '0' ++ natChars f).length = e := by
    have := natChars_len f e hf he
    simp only [List.length_append, List.length_replicate]
    omega
  have hshape : natChars i
        ++ '.' :: (List.replicate (e - (natChars f).length) '0' ++ natChars f) ++ rest
      = natChars i
        ++ ('.' :: ((List.replicate (e - (natChars f).length) '0' ++ natChars f) ++ rest)) := by
    simp
  obtain ⟨htakeI, hdropI⟩ := span_append isDig (natChars i)
    ('.' :: ((List.replicate (e - (natChars f).length) '0' ++ natChars f) ++ rest)) hdigI
    (by intro c hc; simp only [List.head?_cons, Option.mem_some_iff] at hc; rw [← hc]; decide)
  rw [hshape]
  simp only [parseUnsigned, htakeI, hdropI, List.head?_cons, List.tail_cons, htakeF, hdropF]
  rw [if_pos trivial]
  have hfpne : ¬ List.replicate (e - (natChars f).length) '0' ++ natChars f = [] := by
    simp [hneF]
  rw [if_neg hfpne, hvalI, hlenF, charsToNat_replicate_zero, hvalF, if_neg hneI]

/-- The unsigned parser reads back `ratDigits m e` as `m / 10 ^ e`. -/
theorem parseUnsigned_ratDigits (m e : ℕ) (rest : List Char)
    (hrest : ∀ c ∈ rest.head?, isDig c = false ∧ c ≠ '.') :
    parseUnsigned (ratDigits m e ++ rest) = some ((m : ℚ) / 10 ^ e, rest) := by
  rcases Nat.eq_zero_or_pos e with he | he
  · subst he
    have : ratDigits m 0 = natChars m := by
      simp [ratDigits]
    rw [this, parseUnsigned_int m rest hrest]
    norm_num
  · have hsh : ratDigits m e ++ rest
        = natChars (m / 10 ^ e)
          ++ '.' :: (List.replicate (e - (natChars (m % 10 ^ e)).length) '0'
            ++ natChars (m % 10 ^ e)) ++ rest := by
      simp [ratDigits, Nat.pos_iff_ne_zero.mp he]
    rw [hsh, parseUnsigned_frac (m / 10 ^ e) (m % 10 ^ e) e rest he
      (Nat.mod_lt _ (by positivity)) (fun c hc => (hrest c hc).1)]
    have hcast : ((m / 10 ^ e : ℕ) : ℚ) + ((m % 10 ^ e : ℕ) : ℚ) / 10 ^ e
        = (m : ℚ) / 10 ^ e := by
      have hsplit := Nat.div_add_mod m (10 ^ e)
      have hQ : (10 : ℚ) ^ e * ((m / 10 ^ e : ℕ) : ℚ) + ((m % 10 ^ e : ℕ) : ℚ) = (m : ℚ) := by
        exact_mod_cast congrArg (Nat.cast : ℕ → ℚ) hsplit
      have hpow : (10 : ℚ) ^ e ≠ 0 := by positivity
      field_simp
      linarith [hQ]
    rw [hcast]

/-- The signed parser reads back the exact decimal of a rational. -/
theorem parseNum_ratToChars (q : ℚ) (w rest : List Char)
    (hw : ratToChars q = some w)
    (hrest : ∀ c ∈ rest.head?, isDig c = false ∧ c ≠ '.') :
    parseNum (w ++ rest) = some (q, rest) := by
  rcases hde : decExp q.den with _ | e
  · simp only [ratToChars, hde] at hw
    exact Option.noConfusion hw
  simp only [ratToChars, hde, Option.some.injEq] at hw
  have hdvd : q.den ∣ 10 ^ e := by
    have := List.find?_some hde
    have hmod : 10 ^ e % q.den = 0 := by simpa using this
    exact Nat.dvd_of_mod_eq_zero hmod
  have hm : q.num.natAbs * 10 ^ e / q.den * q.den = q.num.natAbs * 10 ^ e :=
    Nat.div_mul_cancel (Dvd.dvd.mul_left hdvd _)
  have hden0 : (q.den : ℚ) ≠ 0 := by
    exact_mod_cast q.den_nz
  have hpow0 : (10 : ℚ) ^ e ≠ 0 := by positivity
  have hvalue : ((q.num.natAbs * 10 ^ e / q.den : ℕ) : ℚ) / 10 ^ e
      = ((q.num.natAbs : ℕ) : ℚ) / (q.den : ℚ) := by
    rw [div_eq_div_iff hpow0 hden0]
    exact_mod_cast congrArg (Nat.cast : ℕ → ℚ) hm
  obtain ⟨hneD, hdigD, -⟩ := natChars_spec (q.num.natAbs * 10 ^ e / q.den / 10 ^ e)
  obtain ⟨c, cs, hcons⟩ := List.exists_cons_of_ne_nil hneD
  have hcdig : isDig c = true := hdigD c (by rw [hcons]; simp)
  have hcne : c ≠ '-' := (isDig_ne c hcdig).1
  have hhead : (ratDigits (q.num.natAbs * 10 ^ e / q.den) e ++ rest).head? = some c := by
    rw [ratDigits, hcons]
    simp
  by_cases hneg : q.num < 0
  · rw [if_pos hneg] at hw
    rw [← hw]
    have hsh : (['-'] ++ ratDigits (q.num.natAbs * 10 ^ e / q.den) e) ++ rest
        = '-' :: (ratDigits (q.num.natAbs * 10 ^ e / q.den) e ++ rest) := by
      simp
    rw [hsh, parseNum]
    rw [if_pos (by simp)]
    simp only [List.tail_cons]
    rw [parseUnsigned_ratDigits _ _ rest hrest, hvalue]
    have habs : ((q.num.natAbs : ℕ) : ℚ) = -(q.num : ℚ) := by
      rw [Int.cast_natAbs, abs_of_neg hneg]
      push_cast
      ring
    have : -(((q.num.natAbs : ℕ) : ℚ) / (q.den : ℚ)) = q := by
      rw [habs, neg_div, neg_neg, Rat.num_div_den]
    simp [this]
  · rw [if_neg hneg] at hw
    rw [← hw]
    simp only [List.nil_append]
    rw [parseNum, if_neg (by rw [hhead]; simp only [Option.some.injEq]; exact hcne),
      parseUnsigned_ratDigits _ _ rest hrest, hvalue]
    have habs : ((q.num.natAbs : ℕ) : ℚ) = (q.num : ℚ) := by
      rw [Int.cast_natAbs, abs_of_nonneg (le_of_not_lt hneg)]
    rw [habs, Rat.num_div_den]

/-- Hex digits of values below 16 are hex characters with the right
value. -/
theorem hexDigit_spec : ∀ n, n < 16 → isHex (hexDigit n) = true ∧ hexVal (hexDigit n) = n := by
  decide

/-- The string-body parser undoes JSON escaping, stopping at the closing
quote. -/
theorem parse_escapeString : ∀ (s rest : List Char),
    parseStringBody (escapeString s ++ '"' :: rest) = some (s, rest) := by
  intro s
  induction s with
  | nil =>
    intro rest
    rw [show escapeString [] = [] from rfl, List.nil_append, parseStringBody.eq_def]
    simp
  | cons c cs ih =>
    intro rest
    have hesc : escapeString (c :: cs) = escapeChar c ++ escapeString cs := by
      simp [escapeString]
    rw [hesc, List.append_assoc]
    by_cases h1 : c = '"'
    · subst h1
      rw [show escapeChar '"' = ['\\', '"'] from by decide]
      simp only [List.cons_append, List.nil_append]
      rw [parseStringBody.eq_def]
      simp [ih]
    · by_cases h2 : c = '\\'
      · subst h2
        rw [show escapeChar '\\' = ['\\', '\\'] from by decide]
        simp only [List.cons_append, List.nil_append]
        rw [parseStringBody.eq_def]
        simp [ih]
      · by_cases h3 : c.toNat < 32
        · have hchar : escapeChar c
              = ['\\', 'u', '0', '0', hexDigit (c.toNat / 16), hexDigit (c.toNat % 16)] := by
            rw [escapeChar, if_neg h1, if_neg h2, if_pos h3]
          obtain ⟨hhx1, hvx1⟩ := hexDigit_spec (c.toNat / 16) (by omega)
          obtain ⟨hhx2, hvx2⟩ := hexDigit_spec (c.toNat % 16) (by omega)
          have hval0 : hexVal '0' = 0 := by decide
          have hval : hexVal '0' * 4096 + hexVal '0' * 256
              + hexVal (hexDigit (c.toNat / 16)) * 16 + hexVal (hexDigit (c.toNat % 16))
              = c.toNat := by
            rw [hval0, hvx1, hvx2]
            omega
          have hsc : isScalar (hexVal '0' * 4096 + hexVal '0' * 256
              + hexVal (hexDigit (c.toNat / 16)) * 16 + hexVal (hexDigit (c.toNat % 16)))
              = true := by
            rw [hval]
            simp only [isScalar, Bool.or_eq_true, decide_eq_true_eq, Bool.and_eq_true]
            omega
          rw [hchar]
          simp only [List.cons_append, List.nil_append]
          rw [parseStringBody.eq_def]
          simp [hhx1, hhx2, hsc, show isHex '0' = true from by decide, ih, hval,
            Char.ofNat_toNat]
          simp only [isScalar, Bool.or_eq_true, decide_eq_true_eq, Bool.and_eq_true]
          omega
        · have hchar : escapeChar c = [c] := by
            rw [escapeChar, if_neg h1, if_neg h2, if_neg h3]
          rw [hchar]
          simp only [List.cons_append, List.nil_append]
          rw [parseStringBody.eq_def]
          simp [h1, h2, ih]

/-- A serialized number starts with a minus sign or a digit. -/
theorem ratToChars_head (q : ℚ) (w : List Char) (hw : ratToChars q = some w) :
    ∃ c t, w = c :: t ∧ (c = '-' ∨ isDig c = true) := by
  rcases hde : decExp q.den with _ | e
  · simp only [ratToChars, hde] at hw
    exact Option.noConfusion hw
  simp only [ratToChars, hde, Option.some.injEq] at hw
  obtain ⟨hneD, hdigD, -⟩ := natChars_spec (q.num.natAbs * 10 ^ e / q.den / 10 ^ e)
  obtain ⟨c, cs, hcons⟩ := List.exists_cons_of_ne_nil hneD
  have hcdig : isDig c = true := hdigD c (by rw [hcons]; simp)
  by_cases hneg : q.num < 0
  · rw [if_pos hneg] at hw
    exact ⟨'-', _, hw.symm, Or.inl rfl⟩
  · rw [if_neg hneg] at hw
    rw [List.nil_append, ratDigits, hcons] at hw
    exact ⟨c, _, hw.symm, Or.inr hcdig⟩

/-- The value parser undoes `writeValue`. -/
theorem parseValue_writeValue (v : JVal) (w rest : List Char) (hw : writeValue v = some w)
    (hrest : ∀ c ∈ rest.head?, isDig c = false ∧ c ≠ '.') :
    parseValue (w ++ rest) = some (v, rest) := by
  cases v with
  | jstr s =>
    simp only [writeValue, Option.some.injEq] at hw
    subst hw
    rw [parseValue]
    rw [if_pos (by simp)]
    have htail : ('"' :: (escapeString s ++ ['"']) ++ rest).tail
        = escapeString s ++ '"' :: rest := by
      simp
    rw [htail, parse_escapeString]
    rfl
  | jnum q =>
    simp only [writeValue] at hw
    obtain ⟨c, t, hcons, hc⟩ := ratToChars_head q w hw
    have hcne : ¬ (w ++ rest).head? = some '"' := by
      rw [hcons]
      simp only [List.cons_append, List.head?_cons, Option.some.injEq]
      rcases hc with hc | hc
      · rw [hc]; decide
      · exact (isDig_ne c hc).2.1
    rw [parseValue, if_neg hcne, parseNum_ratToChars q w rest hw hrest]
    rfl

/-- A serialized pair list starts with a quote. -/
theorem writePairsClose_head : ∀ (obj : Obj) (w : List Char),
    writePairsClose obj = some w → ∃ t, w = '"' :: t := by
  intro obj w hw
  match obj with
  | [] => exact Option.noConfusion hw
  | (k, v) :: rest =>
    rw [writePairsClose.eq_def] at hw
    dsimp only at hw
    rcases hwv : writeValue v with _ | wv <;> rw [hwv] at hw
    · exact Option.noConfusion hw
    rcases rest with _ | ⟨p, rest'⟩
    · exact ⟨_, (Option.some.inj hw).symm⟩
    · rcases hws : writePairsClose (p :: rest') with _ | ws <;> rw [hws] at hw
      · exact Option.noConfusion hw
      · exact ⟨_, (Option.some.inj hw).symm⟩

/-- A serialized pair list has at least one character per pair. -/
theorem writePairsClose_length : ∀ (obj : Obj) (w : List Char),
    writePairsClose obj = some w → obj.length ≤ w.length := by
  intro obj
  induction obj with
  | nil => intro w hw; exact Option.noConfusion hw
  | cons kv rest ih =>
    intro w hw
    obtain ⟨k, v⟩ := kv
    rw [writePairsClose.eq_def] at hw
    dsimp only at hw
    rcases hwv : writeValue v with _ | wv <;> rw [hwv] at hw
    · exact Option.noConfusion hw
    rcases rest with _ | ⟨p, rest'⟩
    · rw [← Option.some.inj hw]
      simp
    · rcases hws : writePairsClose (p :: rest') with _ | ws <;> rw [hws] at hw
      · exact Option.noConfusion hw
      · have hlen := ih ws hws
        rw [← Option.some.inj hw]
        simp only [List.length_cons, List.length_append] at hlen ⊢
        omega

/-- The pair parser undoes `writePairsClose` whenever the fuel covers the
number of pairs. -/
theorem parsePairs_writePairsClose : ∀ (obj : Obj) (w rest : List Char) (fuel : ℕ),
    writePairsClose obj = some w → obj.length ≤ fuel + 1 →
    parsePairs fuel (w ++ rest) = some (obj, rest) := by
  intro obj
  induction obj with
  | nil => intro w rest fuel hw _; exact Option.noConfusion hw
  | cons kv restObj ih =>
    intro w rest fuel hw hfuel
    obtain ⟨k, v⟩ := kv
    rw [writePairsClose.eq_def] at hw
    dsimp only at hw
    rcases hwv : writeValue v with _ | wv <;> rw [hwv] at hw <;> dsimp only at hw
    · exact Option.noConfusion hw
    rcases restObj with _ | ⟨p, restObj'⟩
    · have htail : ('"' :: (escapeString k ++ '"' :: ':' :: (wv ++ ['}'])) ++ rest).tail
          = escapeString k ++ '"' :: (':' :: (wv ++ '}' :: rest)) := by
        simp
      have hval := parseValue_writeValue v wv ('}' :: rest) hwv
        (by intro c hc; simp only [List.head?_cons, Option.mem_some_iff] at hc
            rw [← hc]; exact ⟨by decide, by decide⟩)
      rw [← Option.some.inj hw, parsePairs, if_pos (by simp), htail, parse_escapeString]
      simp [hval]
    · rcases hws : writePairsClose (p :: restObj') with _ | ws <;> rw [hws] at hw
        <;> dsimp only at hw
      · exact Option.noConfusion hw
      have htail : ('"' :: (escapeString k ++ '"' :: ':' :: (wv ++ ',' :: ws)) ++ rest).tail
          = escapeString k ++ '"' :: (':' :: (wv ++ ',' :: (ws ++ rest))) := by
        simp
      have hval := parseValue_writeValue v wv (',' :: (ws ++ rest)) hwv
        (by intro c hc; simp only [List.head?_cons, Option.mem_some_iff] at hc
            rw [← hc]; exact ⟨by decide, by decide⟩)
      rw [← Option.some.inj hw, parsePairs, if_pos (by simp), htail, parse_escapeString]
      rcases fuel with _ | fuel'
      · exfalso
        simp at hfuel
      · have hrec := ih ws rest fuel' hws
          (by simp only [List.length_cons] at hfuel ⊢; omega)
        simp [hval, hrec]

/-- `jsonParse` undoes `jsonStringify`. -/
theorem jsonParse_stringify (obj : Obj) (w : List Char)
    (hw : jsonStringify obj = some w) : jsonParse w = some obj := by
  cases obj with
  | nil =>
    rw [← Option.some.inj hw]
    rfl
  | cons kv rest =>
    simp only [jsonStringify] at hw
    rcases hws : writePairsClose (kv :: rest) with _ | ws <;> rw [hws] at hw
    · exact Option.noConfusion hw
    simp only [Option.map_some', Option.some.injEq] at hw
    rw [← hw]
    obtain ⟨t, hhead⟩ := writePairsClose_head (kv :: rest) ws hws
    have hlen := writePairsClose_length (kv :: rest) ws hws
    rw [jsonParse]
    rw [if_pos (by simp)]
    have hne : ¬ ('{' :: ws).tail = ['}'] := by
      rw [hhead]
      simp
    rw [if_neg hne]
    simp only [List.tail_cons]
    have := parsePairs_writePairsClose (kv :: rest) ws [] ws.length hws
      (by simp at hlen ⊢; omega)
    rw [List.append_nil] at this
    rw [this]
    simp

/-- The scalar range of a `Char`, as plain numeric bounds. -/
theorem char_range (c : Char) : c.toNat < 55296 ∨ (57343 < c.toNat ∧ c.toNat < 1114112) :=
  c.valid

/-- UTF-8 encoding produces bytes. -/
theorem utf8EncodeChar_lt (c : Char) : ∀ b ∈ utf8EncodeChar c, b < 256 := by
  have hr := char_range c
  have hlt : c.toNat < 1114112 := by rcases hr with h | ⟨_, h⟩ <;> omega
  intro b hb
  rw [utf8EncodeChar] at hb
  split_ifs at hb with h1 h2 h3 <;> simp at hb <;> omega

/-- All bytes of a UTF-8 encoded string are below 256. -/
theorem utf8Encode_lt (s : List Char) : ∀ b ∈ utf8Encode s, b < 256 := by
  intro b hb
  simp only [utf8Encode, List.mem_flatten, List.mem_map] at hb
  obtain ⟨l, ⟨c, _, rfl⟩, hbl⟩ := hb
  exact utf8EncodeChar_lt c b hbl

/-- Every character contributes at least one byte. -/
theorem utf8EncodeChar_ne_nil (c : Char) : 1 ≤ (utf8EncodeChar c).length := by
  rw [utf8EncodeChar]
  split_ifs <;> simp

/-- The byte string is at least as long as the character string. -/
theorem utf8Encode_length (s : List Char) : s.length ≤ (utf8Encode s).length := by
  induction s with
  | nil => simp [utf8Encode]
  | cons c cs ih =>
    have h1 := utf8EncodeChar_ne_nil c
    have hs : utf8Encode (c :: cs) = utf8EncodeChar c ++ utf8Encode cs := by
      simp [utf8Encode]
    rw [hs]
    simp only [List.length_append, List.length_cons]
    omega

/-- The fuelled decoder undoes UTF-8 encoding given fuel for every
character. -/
theorem utf8DecodeAux_encode : ∀ (s : List Char) (fuel : ℕ), s.length ≤ fuel →
    utf8DecodeAux fuel (utf8Encode s) = some s := by
  intro s
  induction s with
  | nil =>
    intro fuel _
    rw [show utf8Encode [] = [] from by simp [utf8Encode], utf8DecodeAux]
  | cons c cs ih =>
    intro fuel hfuel
    rcases fuel with _ | f
    · simp at hfuel
    have hrec := ih f (by simp at hfuel ⊢; omega)
    have henc : utf8Encode (c :: cs) = utf8EncodeChar c ++ utf8Encode cs := by
      simp [utf8Encode]
    have hr := char_range c
    rw [henc, utf8EncodeChar]
    by_cases h1 : c.toNat < 128
    · rw [if_pos h1]
      simp only [List.cons_append, List.nil_append]
      rw [utf8DecodeAux]
      rw [if_pos h1, hrec]
      simp [Char.ofNat_toNat]
    · rw [if_neg h1]
      by_cases h2 : c.toNat < 2048
      · rw [if_pos h2]
        simp only [List.cons_append, List.nil_append]
        rw [utf8DecodeAux]
        rw [if_neg (by omega), if_neg (by omega), if_pos (by omega)]
        have hval : utf8Val2 (192 + c.toNat / 64) (128 + c.toNat % 64) = c.toNat := by
          rw [utf8Val2]
          omega
        simp only [List.head?_cons, List.tail_cons]
        rw [if_pos (by
          simp only [utf8Valid2, hval, Bool.and_eq_true, decide_eq_true_eq]
          omega)]
        rw [hrec, hval]
        simp [Char.ofNat_toNat]
      · rw [if_neg h2]
        by_cases h3 : c.toNat < 65536
        · rw [if_pos h3]
          simp only [List.cons_append, List.nil_append]
          rw [utf8DecodeAux]
          rw [if_neg (by omega), if_neg (by omega), if_neg (by omega), if_pos (by omega)]
          have hval : utf8Val3 (224 + c.toNat / 4096) (128 + c.toNat / 64 % 64)
              (128 + c.toNat % 64) = c.toNat := by
            rw [utf8Val3]
            omega
          simp only [List.head?_cons, List.tail_cons]
          rw [if_pos (by
            simp only [utf8Valid3, hval, Bool.and_eq_true, decide_eq_true_eq, isScalar,
              Bool.or_eq_true]
            omega)]
          rw [hrec, hval]
          simp [Char.ofNat_toNat]
        · rw [if_neg h3]
          simp only [List.cons_append, List.nil_append]
          rw [utf8DecodeAux]
          rw [if_neg (by omega), if_neg (by omega), if_neg (by omega), if_neg (by omega),
            if_pos (by omega)]
          have hval : utf8Val4 (240 + c.toNat / 262144) (128 + c.toNat / 4096 % 64)
              (128 + c.toNat / 64 % 64) (128 + c.toNat % 64) = c.toNat := by
            rw [utf8Val4]
            omega
          simp only [List.head?_cons, List.tail_cons]
          rw [if_pos (by
            simp only [utf8Valid4, hval, Bool.and_eq_true, decide_eq_true_eq]
            omega)]
          rw [hrec, hval]
          simp [Char.ofNat_toNat]

/-- UTF-8 decoding undoes UTF-8 encoding. -/
theorem utf8Decode_encode (s : List Char) : utf8Decode (utf8Encode s) = some s :=
  utf8DecodeAux_encode s (utf8Encode s).length (utf8Encode_length s)

/-- Base64 characters decode back to their sixtet and are never the
padding character. -/
theorem sixtet_spec : ∀ n, n < 64 → sixtetVal (sixtetChar n) = some n ∧ sixtetChar n ≠ '=' := by
  decide

/-- `atob` undoes `btoa` on byte strings. -/
theorem atob_btoa : ∀ (bs : List ℕ), (∀ b ∈ bs, b < 256) → atob (btoa bs) = some bs
  | [], _ => rfl
  | [b1], h => by
    have h1 : b1 < 256 := h b1 (by simp)
    obtain ⟨hs1, -⟩ := sixtet_spec (b1 / 4) (by omega)
    obtain ⟨hs2, -⟩ := sixtet_spec (b1 % 4 * 16) (by omega)
    rw [show btoa [b1] = [sixtetChar (b1 / 4), sixtetChar (b1 % 4 * 16), '=', '=']
      from by rw [btoa]]
    rw [atob.eq_def]
    simp [hs1, hs2]
    omega
  | [b1, b2], h => by
    have h1 : b1 < 256 := h b1 (by simp)
    have h2 : b2 < 256 := h b2 (by simp)
    obtain ⟨hs1, -⟩ := sixtet_spec (b1 / 4) (by omega)
    obtain ⟨hs2, -⟩ := sixtet_spec (b1 % 4 * 16 + b2 / 16) (by omega)
    obtain ⟨hs3, hne3⟩ := sixtet_spec (b2 % 16 * 4) (by omega)
    rw [show btoa [b1, b2]
        = [sixtetChar (b1 / 4), sixtetChar (b1 % 4 * 16 + b2 / 16), sixtetChar (b2 % 16 * 4), '=']
      from by rw [btoa]]
    rw [atob.eq_def]
    simp [hs1, hs2, hs3, hne3]
    omega
  | [b1, b2, b3], h => by
    have h1 : b1 < 256 := h b1 (by simp)
    have h2 : b2 < 256 := h b2 (by simp)
    have h3 : b3 < 256 := h b3 (by simp)
    obtain ⟨hs1, -⟩ := sixtet_spec (b1 / 4) (by omega)
    obtain ⟨hs2, -⟩ := sixtet_spec (b1 % 4 * 16 + b2 / 16) (by omega)
    obtain ⟨hs3, hne3⟩ := sixtet_spec (b2 % 16 * 4 + b3 / 64) (by omega)
    obtain ⟨hs4, hne4⟩ := sixtet_spec (b3 % 64) (by omega)
    rw [show btoa [b1, b2, b3]
        = [sixtetChar (b1 / 4), sixtetChar (b1 % 4 * 16 + b2 / 16),
           sixtetChar (b2 % 16 * 4 + b3 / 64), sixtetChar (b3 % 64)]
      from by rw [btoa, btoa]]
    rw [atob.eq_def]
    simp [hs1, hs2, hs3, hne3, hs4, hne4, show atob [] = some [] from rfl]
    omega
  | b1 :: b2 :: b3 :: b4 :: rest, h => by
    have h1 : b1 < 256 := h b1 (by simp)
    have h2 : b2 < 256 := h b2 (by simp)
    have h3 : b3 < 256 := h b3 (by simp)
    obtain ⟨hs1, -⟩ := sixtet_spec (b1 / 4) (by omega)
    obtain ⟨hs2, -⟩ := sixtet_spec (b1 % 4 * 16 + b2 / 16) (by omega)
    obtain ⟨hs3, hne3⟩ := sixtet_spec (b2 % 16 * 4 + b3 / 64) (by omega)
    obtain ⟨hs4, hne4⟩ := sixtet_spec (b3 % 64) (by omega)
    have hrec := atob_btoa (b4 :: rest) (fun b hb => h b (by simp at hb ⊢; tauto))
    rw [show btoa (b1 :: b2 :: b3 :: b4 :: rest)
        = sixtetChar (b1 / 4) :: sixtetChar (b1 % 4 * 16 + b2 / 16)
          :: sixtetChar (b2 % 16 * 4 + b3 / 64) :: sixtetChar (b3 % 64)
          :: btoa (b4 :: rest)
      from by rw [btoa]]
    rw [atob.eq_def]
    have hne : btoa (b4 :: rest) ≠ [] := by
      rcases rest with _ | ⟨b5, _ | ⟨b6, rest2⟩⟩ <;> rw [btoa] <;> simp
    obtain ⟨c0, cs0, hcons0⟩ := List.exists_cons_of_ne_nil hne
    rw [hcons0] at hrec ⊢
    simp [hs1, hs2, hs3, hne3, hs4, hne4, hrec]
    omega

/-- C10: decoding a shareable-link encoding reproduces the DealInputs state
object: whenever `b64Encode` produces an encoding (which it does for every
state whose numeric fields are IEEE doubles, i.e. finite decimals),
`b64Decode` of that encoding returns the state itself, for any fallback. -/
theorem claim_C10 (obj : Obj) (enc : List Char) (fallback : Obj)
    (henc : b64Encode obj = some enc) :
    b64Decode enc fallback = obj := by
  obtain ⟨s, hs, henc'⟩ := Option.map_eq_some'.mp henc
  subst henc'
  rw [b64Decode, atob_btoa (utf8Encode s) (utf8Encode_lt s)]
  dsimp only
  rw [utf8Decode_encode s]
  dsimp only
  rw [jsonParse_stringify obj s hs]

/-- A sample fractional rate with an exact finite decimal (6.5). -/
def sampleRate : ℚ := ⟨13, 2, by norm_num, by norm_num⟩

/-- A sample DealInputs-style state: an integer price, a fractional rate
and a string brand name. -/
def sampleState : Obj :=
  [(['p'], JVal.jnum 1500000), (['r'], JVal.jnum sampleRate),
   (['n'], JVal.jstr ['F', 'i', 'r', 'm'])]

/-- C10 witness: the sample state survives the round trip. -/
theorem claim_C10_witness :
    b64Encode sampleState = some ((b64Encode sampleState).getD [])
      ∧ b64Decode ((b64Encode sampleState).getD []) [] = sampleState :=
  ⟨rfl, claim_C10 sampleState ((b64Encode sampleState).getD []) [] rfl⟩

end SellerFinance
